import Mathlib

/-!
Verification development for the JKalFilter tracking library: a shallow
embedding in Lean 4 of its matrix layer (`matrix.py`), strip-detector model
(`detector.py`), linear and bidirectional Kalman filters (`kfilter.py`) and
fit manager (`fitter.py`), together with theorems settling the specification
claims.

Numbers: the Python source computes with floats; the embedding idealises
them as exact rationals.  Because the Lean kernel does not reduce Mathlib's
field operations on `ℚ`, arithmetic is expressed through explicit
normalised-fraction operations (`qadd`, `qsub`, `qmul`, `qdiv`, `qneg`)
built on `Rat.divInt`; each is proved equal to the corresponding field
operation, so theorems may freely move between the two forms while concrete
runs still evaluate inside the kernel.  Division by zero yields `0` here
where Python raises `ZeroDivisionError`; every claim that exercises a
division carries the side conditions making the two agree.
-/

namespace JKal

/-- Addition on `ℚ` via `Rat.divInt`, kernel-computable. -/
def qadd (a b : ℚ) : ℚ := Rat.divInt (a.num * b.den + b.num * a.den) (a.den * b.den)

/-- Negation on `ℚ` via `Rat.divInt`, kernel-computable. -/
def qneg (a : ℚ) : ℚ := Rat.divInt (-a.num) a.den

/-- Subtraction on `ℚ`, kernel-computable. -/
def qsub (a b : ℚ) : ℚ := qadd a (qneg b)

/-- Multiplication on `ℚ` via `Rat.divInt`, kernel-computable. -/
def qmul (a b : ℚ) : ℚ := Rat.divInt (a.num * b.num) (a.den * b.den)

/-- Division on `ℚ` via `Rat.divInt`, kernel-computable; division by zero gives 0. -/
def qdiv (a b : ℚ) : ℚ := Rat.divInt (a.num * b.den) (a.den * b.num)

/-- Absolute value on `ℚ` (Python `abs`). -/
def qabs (a : ℚ) : ℚ := if a < 0 then qneg a else a

theorem qadd_eq (a b : ℚ) : qadd a b = a + b := by
  have ha : ((a.den : ℤ)) ≠ 0 := Int.natCast_ne_zero.mpr a.den_nz
  have hb : ((b.den : ℤ)) ≠ 0 := Int.natCast_ne_zero.mpr b.den_nz
  rw [qadd, ← Rat.divInt_add_divInt a.num b.num ha hb, Rat.num_divInt_den,
    Rat.num_divInt_den]

theorem qneg_eq (a : ℚ) : qneg a = -a := by
  rw [qneg, ← Rat.neg_def]

theorem qsub_eq (a b : ℚ) : qsub a b = a - b := by
  rw [qsub, qadd_eq, qneg_eq, sub_eq_add_neg]

theorem qmul_eq (a b : ℚ) : qmul a b = a * b := by
  rw [qmul, ← Rat.divInt_mul_divInt', Rat.num_divInt_den, Rat.num_divInt_den]

theorem qdiv_eq (a b : ℚ) : qdiv a b = a / b := by
  rw [qdiv, ← Rat.divInt_mul_divInt', Rat.num_divInt_den, ← Rat.inv_def',
    div_eq_mul_inv]

theorem qabs_eq (a : ℚ) : qabs a = |a| := by
  rw [qabs]
  by_cases h : a < 0
  · rw [if_pos h, qneg_eq, abs_of_neg h]
  · rw [if_neg h, abs_of_nonneg (not_lt.mp h)]

/-!
## Matrices (`matrix.py`)

A `Matrix` holds a list of rows (`self._value`, a list of lists); the
embedding represents that value directly.  `mget`/`mset` model the Python
element access `m[i][j]` (read / write through row indexing); out-of-range
reads return 0 where Python would raise `IndexError` — all uses below stay
in range.
-/

/-- The value of a matrix: a list of rows, as Python's list of lists. -/
abbrev Mat : Type := List (List ℚ)

/-- Element read `m[i][j]`. -/
def mget (m : Mat) (i j : Nat) : ℚ := (m.getD i []).getD j 0

/-- Element write `m[i][j] = v`. -/
def mset (m : Mat) (i j : Nat) (v : ℚ) : Mat := m.set i ((m.getD i []).set j v)

/-- `Matrix.size()`: `(dimx, dimy) = (len(value), len(value[0]))`. -/
def msize (m : Mat) : Nat × Nat := (m.length, (m.headD []).length)

/-- `Matrix.zero(dimx, dimy)` (the `dimx, dimy ≥ 1` guard lives at the
call sites we model, which always pass positive sizes). -/
def mzero (dimx dimy : Nat) : Mat :=
  (List.range dimx).map (fun _ => (List.range dimy).map (fun _ => (0 : ℚ)))

/-- `Matrix.identity(dim)`: a zero matrix whose diagonal is then set to 1,
as the source's loop of element writes. -/
def midentity (dim : Nat) : Mat :=
  (List.range dim).foldl (fun m i => mset m i i 1) (mzero dim dim)

/-- `Matrix._transpose`: entry `(x, y)` of the result is entry `(y, x)` of
the input, ranging over the recorded dimensions. -/
def mtranspose (m : Mat) : Mat :=
  (List.range (msize m).2).map (fun x => (List.range (msize m).1).map (fun y => mget m y x))

/-- `Matrix.__add__` (elementwise; the size guard is enforced by callers,
which only add same-shaped matrices). -/
def madd (a b : Mat) : Mat :=
  (List.range (msize a).1).map (fun x =>
    (List.range (msize a).2).map (fun y => qadd (mget a x y) (mget b x y)))

/-- `Matrix.__sub__` (elementwise). -/
def msub (a b : Mat) : Mat :=
  (List.range (msize a).1).map (fun x =>
    (List.range (msize a).2).map (fun y => qsub (mget a x y) (mget b x y)))

/-- The row-by-column dot product used by `Matrix.__mul__` (`zip` then
sum of products, truncating at the shorter list like Python's `zip`). -/
def mdot (row col : List ℚ) : ℚ :=
  ((row.zip col).map (fun p => qmul p.1 p.2)).foldl qadd 0

/-- `Matrix.__mul__`: transpose the right factor, then take dot products of
rows. -/
def mmul (a b : Mat) : Mat :=
  (a.map (fun row => (mtranspose b).map (fun col => mdot row col)))

/-!
### Element access lemmas
-/

theorem getD_set_self {α : Type} (l : List α) (i : Nat) (v d : α) (h : i < l.length) :
    (l.set i v).getD i d = v := by
  simp [List.getD_eq_getElem?_getD, List.getElem?_set_self', h]

theorem getD_set_ne {α : Type} (l : List α) (i j : Nat) (v d : α) (h : i ≠ j) :
    (l.set i v).getD j d = l.getD j d := by
  simp [List.getD_eq_getElem?_getD, List.getElem?_set_ne h]

theorem getD_set_out {α : Type} (l : List α) (i : Nat) (v d : α) (h : l.length ≤ i) :
    (l.set i v).getD i d = l.getD i d := by
  rw [List.set_eq_of_length_le h]

/-- Row lengths and the row count survive an element write. -/
theorem length_mset (m : Mat) (i j : Nat) (v : ℚ) : (mset m i j v).length = m.length := by
  simp [mset]

/-- A matrix `m` is well-formed for shape `rows × cols`. -/
def Wf (m : Mat) (rows cols : Nat) : Prop :=
  m.length = rows ∧ ∀ r ∈ m, r.length = cols

theorem Wf.row_len {m : Mat} {rows cols : Nat} (h : Wf m rows cols) {i : Nat}
    (hi : i < rows) : (m.getD i []).length = cols := by
  have hlen : i < m.length := h.1 ▸ hi
  have : m.getD i [] = m[i] := by
    simp [List.getD_eq_getElem?_getD, List.getElem?_eq_getElem hlen]
  rw [this]
  exact h.2 _ (List.getElem_mem hlen)

theorem Wf.mset {m : Mat} {rows cols : Nat} (h : Wf m rows cols) (i j : Nat) (v : ℚ) :
    Wf (JKal.mset m i j v) rows cols := by
  rcases Nat.lt_or_ge i m.length with hi | hi
  · refine ⟨by simpa [JKal.mset] using h.1, ?_⟩
    intro r hr
    rcases List.mem_or_eq_of_mem_set hr with hmem | rfl
    · exact h.2 _ hmem
    · have := h.row_len (h.1 ▸ hi)
      simpa using this
  · have : JKal.mset m i j v = m := List.set_eq_of_length_le hi
    rw [this]
    exact h

theorem mget_mset_self {m : Mat} {rows cols : Nat} (h : Wf m rows cols)
    {i j : Nat} (hi : i < rows) (hj : j < cols) (v : ℚ) :
    mget (mset m i j v) i j = v := by
  have hlen : i < m.length := h.1 ▸ hi
  have hrow : (m.getD i []).length = cols := h.row_len hi
  have : (mset m i j v).getD i [] = (m.getD i []).set j v := by
    simp [mset, List.getD_eq_getElem?_getD, List.getElem?_set_eq_of_lt _ hlen]
  rw [mget, this, getD_set_self _ _ _ _ (hrow ▸ hj)]

theorem mget_mset_ne (m : Mat) {i r j c : Nat} (hne : i ≠ r ∨ j ≠ c) (v : ℚ) :
    mget (mset m i j v) r c = mget m r c := by
  rcases Nat.decEq i r with h | h
  · -- i ≠ r: the write touched a different row
    rw [mget, mget, mset]
    have : (m.set i ((m.getD i []).set j v)).getD r [] = m.getD r [] := by
      simp [List.getD_eq_getElem?_getD, List.getElem?_set_ne h]
    rw [this]
  · subst h
    have hj : j ≠ c := by tauto
    rw [mget, mget, mset]
    rcases Nat.lt_or_ge i m.length with hi | hi
    · have : (m.set i ((m.getD i []).set j v)).getD i [] = (m.getD i []).set j v := by
        simp [List.getD_eq_getElem?_getD, List.getElem?_set_eq_of_lt _ hi]
      rw [this, getD_set_ne _ _ _ _ _ hj]
    · have : (m.set i ((m.getD i []).set j v)).getD i [] = m.getD i [] := by
        rw [List.set_eq_of_length_le (by omega)]
      rw [this]

/-!
## LU decomposition and inversion (`matrix.py`, `LU` / `LUInvert` / `I`)

Crout's method, including the source's replacement of an exactly-zero pivot
by `1e-20`.  `LUInvert` performs the two triangular solves column by
column; the Python `try/except ZeroDivisionError` that returns `None` is
modelled by a guard on the diagonals actually used as divisors.
-/

/-- Errors surfacing from the embedded library ("no source-type names"). -/
inductive Err : Type
  | wrongShape
  | nonInvertible
  | notSquare
  | wrongLayerX
  | fuelOut
  | stopIter
  | emptyDet
deriving DecidableEq, Repr

/-- The zero-pivot replacement used by `Matrix.LU` (`1e-20`). -/
def luEps : ℚ := Rat.divInt 1 (10 ^ 20)

/-- The running sum `tot = Σ_{k<i} L[r][k] * U[k][c]` of both inner loops. -/
def luSum (L U : Mat) (r c i : Nat) : ℚ :=
  (List.range i).foldl (fun t k => qadd t (qmul (mget L r k) (mget U k c))) 0

/-- First inner loop of iteration `i`: `L[j][i] = A[j][i] - tot` for
`j ∈ [i, dim)`. -/
def luLoop1 (A : Mat) (i dim : Nat) (L U : Mat) : Mat :=
  (List.range' i (dim - i)).foldl
    (fun Lc j => mset Lc j i (qsub (mget A j i) (luSum Lc U j i i))) L

/-- Second inner loop of iteration `i`: epsilon-guard the pivot, then
`U[i][j] = (A[i][j] - tot) / L[i][i]` for `j ∈ [i, dim)`. -/
def luLoop2 (A : Mat) (i dim : Nat) (LU : Mat × Mat) : Mat × Mat :=
  (List.range' i (dim - i)).foldl
    (fun LUc j =>
      let tot := luSum LUc.1 LUc.2 i j i
      let Lc := if mget LUc.1 i i = 0 then mset LUc.1 i i luEps else LUc.1
      (Lc, mset LUc.2 i j (qdiv (qsub (mget A i j) tot) (mget Lc i i))))
    LU

/-- The full Crout loop of `Matrix.LU`, starting from a zero `L` and an
identity `U`. -/
def LUpair (A : Mat) : Mat × Mat :=
  (List.range (msize A).1).foldl
    (fun LU i => luLoop2 A i (msize A).1 (luLoop1 A i (msize A).1 LU.1 LU.2, LU.2))
    (mzero (msize A).1 (msize A).1, midentity (msize A).1)

/-- `Matrix.LU`: fails on a non-square matrix, otherwise runs Crout's
method. -/
def matLU (A : Mat) : Except Err (Mat × Mat) :=
  if (msize A).1 ≠ (msize A).2 then .error .notSquare else .ok (LUpair A)

/-- The forward substitution of `Matrix.LUInvert` building `col_y` for
column `i`. -/
def luColY (L : Mat) (dim i : Nat) : List ℚ :=
  (List.range' (i + 1) (dim - (i + 1))).foldl
    (fun cy j =>
      let rest := (((cy.drop i).take (j - i)).zip (((L.getD j []).drop i).take (j - i))).map
          (fun p => qmul p.2 p.1) |>.foldl qadd 0
      cy.set j (qdiv (qneg rest) (mget L j j)))
    (((List.range dim).map (fun _ => (0 : ℚ))).set i (qdiv 1 (mget L i i)))

/-- The backward substitution of `Matrix.LUInvert` building `col_x` for a
column. -/
def luColX (U : Mat) (dim : Nat) (cy : List ℚ) : List ℚ :=
  ((List.range dim).reverse).foldl
    (fun cx j =>
      let rest := ((cx.drop j).zip ((U.getD j []).drop j)).map
          (fun p => qmul p.2 p.1) |>.foldl qadd 0
      cx.set j (qdiv (qsub (cy.getD j 0) rest) (mget U j j)))
    ((List.range dim).map (fun _ => (0 : ℚ)))

/-- `Matrix.LUInvert`: the divisors are the diagonals of `L` and `U`; a
zero among them is the `ZeroDivisionError` path returning `None`. -/
def LUInvert (L U : Mat) : Option Mat :=
  if (List.range (msize L).1).all
      (fun idx => decide (mget L idx idx ≠ 0) && decide (mget U idx idx ≠ 0)) then
    some ((List.range (msize L).1).foldl
      (fun inv i =>
        let cx := luColX U (msize L).1 (luColY L (msize L).1 i)
        (List.range (msize L).1).foldl (fun inv2 j => mset inv2 j i (cx.getD j 0)) inv)
      (mzero (msize L).1 (msize L).1))
  else none

/-- `Matrix._inverse` / the `I` property: LU-decompose then invert; `none`
both for the flagged non-invertible result and for the (never exercised)
non-square raise. -/
def minv (m : Mat) : Option Mat :=
  match matLU m with
  | .error _ => none
  | .ok (L, U) => LUInvert L U

end JKal

deriving instance DecidableEq for Except

namespace JKal

/-!
## Kalman filters (`kfilter.py`)

One record embeds both `LKFilter` and its subclass `TwoWayLKFilter`: the
subclass only adds the `reverse_measurements` buffer and the `rev` flag
(initially `[]` and `False`), which sit unused in plain `LKFilter` runs.
Measurement buffer entries are `Option Mat` because the source stores
`None` placeholders for gated misses; the buffer itself is an
`Option (List …)` because it starts as Python `None` before the first
recording.  Python's deques are represented as Lean lists in the same
order; the deque's `pop()` from the right is `popRight` below.  Kalman
updates rebind whole matrix attributes (never mutating a matrix in place),
so the `T`/`I` caching of `matrix.py` is semantics-neutral here and
transpose/inverse are used directly; the caches themselves are modelled
separately for the claims about them.
-/

/-- The filter state: the six constructor matrices, the identity `I`
(named `Iden` here), the measurement buffers and the step counter. -/
structure KF : Type where
  A : Mat
  H : Mat
  x : Mat
  P : Mat
  Q : Mat
  R : Mat
  Iden : Mat
  measurements : Option (List (Option Mat))
  reverse_measurements : List (Option Mat)
  rev : Bool
  counter : Option Nat
deriving DecidableEq, Repr

/-- `LKFilter.__init__` / `TwoWayLKFilter.__init__`: `I` is the identity
of size `max x.size()`; buffers and counter start empty. -/
def mkKF (A H x P Q R : Mat) : KF :=
  { A := A, H := H, x := x, P := P, Q := Q, R := R
    Iden := midentity (max (msize x).1 (msize x).2)
    measurements := none, reverse_measurements := [], rev := false, counter := none }

/-- `LKFilter.update`: measurement shape guard, innovation, gain, and the state
and covariance updates.  A singular `S` is the Python crash from
`S.I = None`. -/
def update (z : Mat) (f : KF) : Except Err KF :=
  if msize z ≠ msize (mmul f.H f.x) then .error .wrongShape
  else
    match minv (madd (mmul (mmul f.H f.P) (mtranspose f.H)) f.R) with
    | none => .error .nonInvertible
    | some Sinv =>
      let y := msub z (mmul f.H f.x)
      let K := mmul (mmul f.P (mtranspose f.H)) Sinv
      .ok { f with x := madd f.x (mmul K y),
                   P := mmul (msub f.Iden (mmul K f.H)) f.P }

/-- `LKFilter.predict`: `x ← A·x`, `P ← A·P·Aᵀ + Q`. -/
def predict (f : KF) : KF :=
  { f with x := mmul f.A f.x,
           P := madd (mmul (mmul f.A f.P) (mtranspose f.A)) f.Q }

/-- The counter bookkeeping at the end of `LKFilter.step` (`TypeError`
on the first call sets it to 0). -/
def bumpCounter (f : KF) : KF :=
  { f with counter := match f.counter with
                      | none => some 0
                      | some c => some (c + 1) }

/-- The synthetic starting measurement `Matrix([self.state[0][0]])` taken
from the current state's first row. -/
def seedMeas (f : KF) : Mat := [f.x.headD []]

/-- The measurement-recording block at the top of `LKFilter.step`: append
to an existing buffer, or — `AttributeError` on `None` — create the buffer
holding only the synthetic seed (the passed measurement is not stored). -/
def recordMeas (m : Option Mat) (f : KF) : KF :=
  match f.measurements with
  | some l => { f with measurements := some (l ++ [m]) }
  | none => { f with measurements := some [some (seedMeas f)] }

/-- `LKFilter.step`: optionally record, update when a measurement is
present, predict, bump the counter, and return the state `(x, P)`. -/
def stepKF (m : Option Mat) (add : Bool) (f : KF) : Except Err ((Mat × Mat) × KF) :=
  let f1 := if add then recordMeas m f else f
  match m with
  | some z =>
    match update z f1 with
    | .error e => .error e
    | .ok f2 =>
      let f3 := bumpCounter (predict f2)
      .ok ((f3.x, f3.P), f3)
  | none =>
    let f3 := bumpCounter (predict f1)
    .ok ((f3.x, f3.P), f3)

/-- Python-2 `round(q, 5)`: half away from zero, at 5 decimal digits. -/
def round5 (q : ℚ) : ℚ :=
  let s := qmul q 100000
  let r : ℤ := if 0 ≤ s then Rat.floor (qadd s (Rat.divInt 1 2))
               else -Rat.floor (qadd (qneg s) (Rat.divInt 1 2))
  Rat.divInt r 100000

/-- `LKFilter.measurements_list`: project each stored measurement to its
rounded `[0][0]` entry, keeping `None` entries as they are. -/
def measurements_list (f : KF) : List (Option ℚ) :=
  (f.measurements.getD []).map (fun m =>
    match m with
    | some z => some (round5 (mget z 0 0))
    | none => none)

/-- `update` only rewrites `x` and `P`. -/
theorem update_ok_fields (z : Mat) (f g : KF) (h : update z f = .ok g) :
    g.A = f.A ∧ g.H = f.H ∧ g.Q = f.Q ∧ g.R = f.R ∧ g.Iden = f.Iden
    ∧ g.measurements = f.measurements ∧ g.reverse_measurements = f.reverse_measurements
    ∧ g.rev = f.rev ∧ g.counter = f.counter := by
  simp only [update] at h
  split at h
  · exact absurd h (by simp)
  · split at h
    · exact absurd h (by simp)
    · obtain rfl := Except.ok.inj h
      exact ⟨rfl, rfl, rfl, rfl, rfl, rfl, rfl, rfl, rfl⟩

/-- `recordMeas` only rewrites the measurement buffer. -/
theorem recordMeas_fields (m : Option Mat) (f : KF) :
    (recordMeas m f).A = f.A ∧ (recordMeas m f).x = f.x ∧ (recordMeas m f).P = f.P
    ∧ (recordMeas m f).reverse_measurements = f.reverse_measurements := by
  cases h : f.measurements <;> simp [recordMeas, h]

/-- A successful `step` leaves `A` and both buffers exactly as the
recording phase left them, and returns the state of the filter it hands
back. -/
theorem stepKF_ok_fields (m : Option Mat) (add : Bool) (f : KF) (s : Mat × Mat) (f' : KF)
    (h : stepKF m add f = .ok (s, f')) :
    f'.A = (if add then recordMeas m f else f).A
    ∧ f'.measurements = (if add then recordMeas m f else f).measurements
    ∧ f'.reverse_measurements = (if add then recordMeas m f else f).reverse_measurements
    ∧ s = (f'.x, f'.P) := by
  cases m with
  | none =>
    simp only [stepKF, Except.ok.injEq, Prod.mk.injEq] at h
    obtain ⟨h1, h3⟩ := h
    subst h3
    exact ⟨rfl, rfl, rfl, h1.symm⟩
  | some z =>
    simp only [stepKF] at h
    cases hu : update z (if add then recordMeas (some z) f else f) with
    | error e => rw [hu] at h; exact absurd h (by simp)
    | ok f2 =>
      rw [hu] at h
      simp only [Except.ok.injEq, Prod.mk.injEq] at h
      obtain ⟨h1, h3⟩ := h
      subst h3
      obtain ⟨hA, _, _, _, _, hm2, hr2, _, _⟩ := update_ok_fields _ _ _ hu
      exact ⟨hA, hm2, hr2, h1.symm⟩

/-!
## The bidirectional filter (`TwoWayLKFilter`)
-/

/-- `TwoWayLKFilter.add_meas`: the reverse buffer holds the measurements,
the forward buffer their reversal (deques, popped from the right). -/
def add_meas (ms : List (Option Mat)) (f : KF) : KF :=
  { f with reverse_measurements := ms, measurements := some ms.reverse }

/-- `TwoWayLKFilter.reverse`: invert `A` in place and toggle the flag.
A failed inversion is surfaced here (Python stores `None` into `A` and
crashes at the next use of it). -/
def reverseKF (f : KF) : Option KF :=
  (minv f.A).map (fun B => { f with A := B, rev := !f.rev })

/-- Popping a deque from the right (`deque.pop()`). -/
def popRight (l : List (Option Mat)) : Option (Option Mat × List (Option Mat)) :=
  match l.reverse with
  | [] => none
  | x :: r => some (x, r.reverse)

/-- Result of one `TwoWayLKFilter.next()` call: a yielded state with the
filter afterwards, the `StopIteration` (with the buffer swap already
applied), or a numeric failure. -/
inductive NextRes : Type
  | yield (s : Mat × Mat) (f : KF)
  | stop (f : KF)
  | crash (e : Err)

/-- The buffer exchange of `next()` on an exhausted reverse buffer:
`self.reverse_measurements, self.measurements = self.measurements,
self.reverse_measurements`. -/
def swapKF (f : KF) : KF :=
  { f with reverse_measurements := f.measurements.getD [],
           measurements := some f.reverse_measurements }

/-- `TwoWayLKFilter.next()`: pop the reverse buffer and step; on
exhaustion swap the buffers, stop if both passes are done, otherwise
reverse and immediately pop-and-step from the swapped buffer (the
source's single recursive call). -/
def twNext (f : KF) : NextRes :=
  match popRight f.reverse_measurements with
  | some (m, rest) =>
    match stepKF m false { f with reverse_measurements := rest } with
    | .ok (s, f') => .yield s f'
    | .error e => .crash e
  | none =>
    if (swapKF f).reverse_measurements.isEmpty then .stop (swapKF f)
    else
      match reverseKF (swapKF f) with
      | none => .crash .nonInvertible
      | some f2 =>
        match popRight f2.reverse_measurements with
        | none => .stop f2
        | some (m, rest) =>
          match stepKF m false { f2 with reverse_measurements := rest } with
          | .ok (s, f') => .yield s f'
          | .error e => .crash e

/-- Driving `next()` to exhaustion, fuel-bounded: collects the yielded
states and the filter left behind by the final `StopIteration`. -/
def runTW : Nat → KF → Except Err (List (Mat × Mat) × KF)
  | 0, _ => .error .fuelOut
  | n + 1, f =>
    match twNext f with
    | .stop f' => .ok ([], f')
    | .crash e => .error e
    | .yield s f' =>
      match runTW n f' with
      | .ok (l, g) => .ok (s :: l, g)
      | .error e => .error e

/-- `TwoWayLKFilter.__iter__` followed by the iteration loop: raise
`StopIteration` on an empty forward buffer, otherwise reverse once and
consume. -/
def iterTW (fuel : Nat) (f : KF) : Except Err (List (Mat × Mat) × KF) :=
  if (f.measurements.getD []).isEmpty then .error .stopIter
  else
    match reverseKF f with
    | none => .error .nonInvertible
    | some f1 => runTW fuel f1

/-!
## Iteration bookkeeping for the bidirectional filter

The lemmas below drive `next()` through a whole pass: popping a buffer of
length `n` yields exactly `n` states (unless a numeric failure interrupts),
leaves `A` and the forward buffer untouched, and hands over a filter whose
reverse buffer is empty.
-/

theorem popRight_append (l : List (Option Mat)) (a : Option Mat) :
    popRight (l ++ [a]) = some (a, l) := by
  simp [popRight]

theorem popRight_nil : popRight [] = none := rfl

/-- The only errors a `step` can raise. -/
theorem stepKF_error_shape (m : Option Mat) (add : Bool) (f : KF) (e : Err)
    (h : stepKF m add f = .error e) : e = .wrongShape ∨ e = .nonInvertible := by
  cases m with
  | none => simp [stepKF] at h
  | some z =>
    simp only [stepKF] at h
    cases hu : update z (if add then recordMeas (some z) f else f) with
    | ok f2 => rw [hu] at h; exact absurd h (by simp)
    | error e2 =>
      rw [hu] at h
      obtain rfl := (Except.error.inj h).symm
      rw [update] at hu
      by_cases hsh : msize z ≠ msize (mmul (if add then recordMeas (some z) f else f).H
          (if add then recordMeas (some z) f else f).x)
      · rw [if_pos hsh] at hu
        exact Or.inl (Except.error.inj hu).symm
      · rw [if_neg hsh] at hu
        cases hminv : minv (madd (mmul (mmul (if add then recordMeas (some z) f else f).H
            (if add then recordMeas (some z) f else f).P)
            (mtranspose (if add then recordMeas (some z) f else f).H))
            (if add then recordMeas (some z) f else f).R) with
        | none => rw [hminv] at hu; exact Or.inr (Except.error.inj hu).symm
        | some Sinv => rw [hminv] at hu; exact absurd hu (by simp)

/-- Consuming the whole reverse buffer: one state per entry, or a numeric
failure; fuel is spent one unit per entry. -/
theorem runTW_phase (rm : List (Option Mat)) :
    ∀ (f : KF) (fuel : Nat), f.reverse_measurements = rm →
    (∃ e, (e = Err.wrongShape ∨ e = Err.nonInvertible)
        ∧ runTW (rm.length + fuel) f = .error e) ∨
    (∃ sts f', sts.length = rm.length
       ∧ f'.reverse_measurements = []
       ∧ f'.measurements = f.measurements
       ∧ f'.A = f.A
       ∧ runTW (rm.length + fuel) f =
           (match runTW fuel f' with
            | .ok (p1, p2) => .ok (sts ++ p1, p2)
            | .error e => .error e)) := by
  induction rm using List.reverseRecOn with
  | nil =>
    intro f fuel hf
    right
    refine ⟨[], f, rfl, hf, rfl, rfl, ?_⟩
    simp only [List.length_nil, Nat.zero_add]
    cases h : runTW fuel f with
    | ok p => cases p; simp
    | error e => simp
  | append_singleton rs m ih =>
    intro f fuel hf
    have hlen : (rs ++ [m]).length + fuel = (rs.length + fuel) + 1 := by
      simp
      omega
    rw [hlen]
    cases hs : stepKF m false { f with reverse_measurements := rs } with
    | error e =>
      left
      refine ⟨e, stepKF_error_shape _ _ _ _ hs, ?_⟩
      have hn : twNext f = .crash e := by
        simp only [twNext, hf, popRight_append, hs]
      rw [runTW, hn]
    | ok p =>
      obtain ⟨s, f1⟩ := p
      have hn : twNext f = .yield s f1 := by
        simp only [twNext, hf, popRight_append, hs]
      have hfields := stepKF_ok_fields _ _ _ _ _ hs
      have hA1 : f1.A = f.A := by simpa using hfields.1
      have hm1 : f1.measurements = f.measurements := by simpa using hfields.2.1
      have hr1 : f1.reverse_measurements = rs := by simpa using hfields.2.2.1
      rcases ih f1 fuel hr1 with ⟨e, he, heq⟩ | ⟨sts, f', hsl, hr', hm', hA', heq⟩
      · left
        refine ⟨e, he, ?_⟩
        simp only [runTW, hn, heq]
      · right
        refine ⟨s :: sts, f', by simp [hsl], hr', hm'.trans hm1, hA'.trans hA1, ?_⟩
        simp only [runTW, hn, heq]
        cases h2 : runTW fuel f' with
        | ok p2 => cases p2; simp
        | error e2 => simp

/-- The swap-and-turn node of `next()` followed by the forward pass: with
the reverse buffer empty and the forward buffer holding `ms ≠ []`, the
filter swaps buffers, reverses again (so `A` becomes its inversion `A2`)
and consumes the `|ms|` swapped entries; the final `StopIteration` swap
leaves both buffers empty and `A` untouched. -/
theorem runTW_after_swap (f : KF) (ms : List (Option Mat)) (fuel : Nat) (A2 : Mat)
    (hrm : f.reverse_measurements = [])
    (hms : f.measurements = some ms)
    (hne : ms ≠ [])
    (hinv : minv f.A = some A2)
    (hfuel : ms.length + 1 ≤ fuel) :
    (∃ e, (e = Err.wrongShape ∨ e = Err.nonInvertible) ∧ runTW fuel f = .error e) ∨
    (∃ sts f', sts.length = ms.length
       ∧ f'.A = A2
       ∧ runTW fuel f = .ok (sts, f')) := by
  rcases List.eq_nil_or_concat ms with rfl | ⟨rs, m, hcat⟩
  · exact absurd rfl hne
  rw [List.concat_eq_append] at hcat
  subst hcat
  obtain ⟨fuel1, hfe⟩ : ∃ k, fuel = ((rs.length + (1 + k)) + 1) :=
    ⟨fuel - (rs.length + 2), by simp at hfuel; omega⟩
  subst hfe
  -- the swap installs the forward buffer as the new reverse buffer
  have hsw2 : swapKF f =
      { f with
          reverse_measurements := rs ++ [m],
          measurements := some ([] : List (Option Mat)) } := by
    simp [swapKF, hms, hrm]
  -- the second reversal succeeds and installs `A2`
  have hrev : reverseKF
        { f with
            reverse_measurements := rs ++ [m],
            measurements := some ([] : List (Option Mat)) } =
      some
        { f with
            reverse_measurements := rs ++ [m],
            measurements := some ([] : List (Option Mat)),
            A := A2,
            rev := !f.rev } := by
    rw [reverseKF]
    show (minv f.A).map _ = _
    rw [hinv, Option.map_some']
  -- the swap-and-turn node of `next()`
  have hswap : twNext f = (
      match stepKF m false
          { f with
              reverse_measurements := rs,
              measurements := some ([] : List (Option Mat)),
              A := A2,
              rev := !f.rev } with
      | .ok (s, f') => NextRes.yield s f'
      | .error e => NextRes.crash e) := by
    simp only [twNext, hrm, popRight_nil, hsw2]
    rw [if_neg (by simp)]
    rw [hrev]
    simp only [popRight_append]
  cases hs : stepKF m false
      { f with
          reverse_measurements := rs,
          measurements := some ([] : List (Option Mat)),
          A := A2,
          rev := !f.rev } with
  | error e =>
    rw [hs] at hswap
    left
    refine ⟨e, stepKF_error_shape _ _ _ _ hs, ?_⟩
    simp only [runTW, hswap]
  | ok p =>
    obtain ⟨s, f3⟩ := p
    rw [hs] at hswap
    have hrun : runTW ((rs.length + (1 + fuel1)) + 1) f =
        (match runTW (rs.length + (1 + fuel1)) f3 with
         | .ok (l, g) => .ok (s :: l, g)
         | .error e => .error e) := by
      simp only [runTW, hswap]
    have hfields := stepKF_ok_fields _ _ _ _ _ hs
    have hA3 : f3.A = A2 := by simpa using hfields.1
    have hm3 : f3.measurements = some ([] : List (Option Mat)) := by simpa using hfields.2.1
    have hr3 : f3.reverse_measurements = rs := by simpa using hfields.2.2.1
    rcases runTW_phase rs f3 (1 + fuel1) hr3 with ⟨e, he, heq⟩ | ⟨sts, f4, hsl, hr4, hm4, hA4, heq⟩
    · left
      refine ⟨e, he, ?_⟩
      rw [hrun, heq]
    · -- the pass ends in the final swap-and-stop node
      have hstop : runTW (1 + fuel1) f4 = .ok ([], swapKF f4) := by
        have hnx : twNext f4 = NextRes.stop (swapKF f4) := by
          simp only [twNext, hr4, popRight_nil]
          rw [if_pos (by simp [swapKF, hr4, hm4.trans hm3])]
        rw [show 1 + fuel1 = fuel1 + 1 from by omega, runTW, hnx]
      right
      refine ⟨s :: sts, swapKF f4, ?_, ?_, ?_⟩
      · simp [hsl]
      · show f4.A = A2
        exact hA4.trans hA3
      · rw [hrun, heq, hstop]
        simp

/-- A concrete filter used by several witnesses: `A = [[1,1],[0,1]]`,
`H = [[1,0]]`, state `(7, 0)ᵀ`, `P = diag(10,10)`, `Q = 0`, `R = [[1]]`,
no buffer yet. -/
def kfc : KF := mkKF [[1, 1], [0, 1]] [[1, 0]] [[7], [0]] [[10, 0], [0, 10]] [[0, 0], [0, 0]] [[1]]

/-- Claim C5: a bidirectional filter holding `k ≥ 1` measurements,
iterated to exhaustion, terminates after yielding exactly `2k` states
(`k` backward, then `k` forward), and its transition matrix afterwards is
the result of inverting the initial `A` twice — provided the two
inversions exist and no numeric failure interrupts a step (a singular
innovation matrix raises in the source as well). -/
theorem C5_twoway_iteration (f : KF) (ms : List (Option Mat)) (k fuel : Nat) (A1 A2 : Mat)
    (hk : ms.length = k) (hk1 : 1 ≤ k) (hfuel : 2 * k + 1 ≤ fuel)
    (h1 : minv f.A = some A1) (h2 : minv A1 = some A2) :
    iterTW fuel (add_meas ms f) ≠ .error .fuelOut
    ∧ ∀ out fin, iterTW fuel (add_meas ms f) = .ok (out, fin) →
        out.length = 2 * k ∧ fin.A = A2 := by
  have hne : ms ≠ [] := by
    intro h
    rw [h] at hk
    simp at hk
    omega
  have hrevadd : reverseKF (add_meas ms f) =
      some { add_meas ms f with A := A1, rev := !(add_meas ms f).rev } := by
    rw [reverseKF]
    show (minv f.A).map _ = _
    rw [h1, Option.map_some']
  have hiter : iterTW fuel (add_meas ms f) =
      runTW fuel { add_meas ms f with A := A1, rev := !(add_meas ms f).rev } := by
    rw [iterTW, if_neg (by simp [add_meas, hne]), hrevadd]
  obtain ⟨fuel1, hfe⟩ : ∃ j, fuel = ms.length + j := ⟨fuel - ms.length, by omega⟩
  subst hfe
  rcases runTW_phase ms { add_meas ms f with A := A1, rev := !(add_meas ms f).rev } fuel1 rfl
    with ⟨e, he, heq⟩ | ⟨sts, f2, hsl, hr2, hm2, hA2, heq⟩
  · constructor
    · rw [hiter, heq]
      intro hcon
      rcases he with rfl | rfl <;> simp at hcon
    · intro out fin hok
      rw [hiter, heq] at hok
      exact absurd hok (by simp)
  · have hms2 : f2.measurements = some ms.reverse := hm2
    have hA2' : minv f2.A = some A2 := by
      rw [hA2]
      exact h2
    rcases runTW_after_swap f2 ms.reverse fuel1 A2 hr2 hms2 (by simpa using hne) hA2'
        (by simp; omega)
      with ⟨e, he, heq2⟩ | ⟨sts2, f3, hsl2, hA3, heq2⟩
    · have herr : runTW (ms.length + fuel1)
          { add_meas ms f with A := A1, rev := !(add_meas ms f).rev } = .error e := by
        rw [heq, heq2]
      constructor
      · rw [hiter, herr]
        intro hcon
        rcases he with rfl | rfl <;> simp at hcon
      · intro out fin hok
        rw [hiter, herr] at hok
        exact absurd hok (by simp)
    · have hfull : runTW (ms.length + fuel1)
          { add_meas ms f with A := A1, rev := !(add_meas ms f).rev } =
          .ok (sts ++ sts2, f3) := by
        rw [heq, heq2]
      constructor
      · rw [hiter, hfull]
        simp
      · intro out fin hok
        rw [hiter, hfull] at hok
        simp only [Except.ok.injEq, Prod.mk.injEq] at hok
        obtain ⟨rfl, rfl⟩ := hok
        constructor
        · rw [List.length_append, hsl, hsl2, List.length_reverse, hk]
          omega
        · exact hA3

/-- Witness for C5 at the concrete filter `kfc` with one measurement:
three units of fuel suffice, and the theorem pins the outcome. -/
theorem C5_witness :
    iterTW 3 (add_meas [some [[1]]] kfc) ≠ .error .fuelOut
    ∧ ∀ out fin, iterTW 3 (add_meas [some [[1]]] kfc) = .ok (out, fin) →
        out.length = 2 * 1 ∧ fin.A = [[1, 1], [0, 1]] :=
  C5_twoway_iteration kfc [some [[1]]] 1 3 [[1, -1], [0, 1]] [[1, 1], [0, 1]]
    (by decide) (by decide) (by decide) (by decide) (by decide)

/-!
## The detector (`detector.py`)

A `Strip` contributes only its hit counter and its (derived) centre
position to the behaviour claimed about, so a layer stores one counter per
strip and `hit_strips` holds strip indices; Python's list of `Strip`
objects referenced from `hit_strips` corresponds to this index list, and
`list.remove` to `List.erase`.
-/

/-- Kernel-computable embedding of a natural number into `ℚ`. -/
def qnat (n : Nat) : ℚ := Rat.divInt n 1

theorem qnat_eq (n : Nat) : qnat n = (n : ℚ) := by
  rw [qnat, Rat.divInt_one]
  norm_cast

/-- A `Layer`: geometry plus the per-strip hit counters, the
insertion-ordered `hit_strips` index list and the layer's own counter. -/
structure Layer : Type where
  x : ℚ
  y : ℚ
  bottom : ℚ
  top : ℚ
  strip_height : ℚ
  strips : List Nat
  hit_strips : List Nat
  hits : Nat
deriving DecidableEq, Repr

/-- `Layer.__init__`: bottom `y - height/2`, top `bottom + height`, strip
height `(top - bottom)/num_strips`, all counters zero. -/
def mkLayer (x y height : ℚ) (numStrips : Nat) : Layer :=
  let bottom := qsub y (qmul height (Rat.divInt 1 2))
  let top := qadd bottom height
  { x := x, y := y, bottom := bottom, top := top
    strip_height := qdiv (qsub top bottom) (qnat numStrips)
    strips := (List.range numStrips).map (fun _ => 0)
    hit_strips := [], hits := 0 }

/-- The centre `y` of strip `i`: `bottom + (i + 0.5) * step`. -/
def stripY (l : Layer) (i : Nat) : ℚ :=
  qadd l.bottom (qmul (qadd (qnat i) (Rat.divInt 1 2)) l.strip_height)

/-- The strip index `int(math.floor((y - bottom) / strip_height))`
computed by `Layer.hit` (nonnegative whenever `y ≥ bottom` and the strip
height is positive, which the recorded branch guarantees in every run). -/
def hitIndex (l : Layer) (hy : ℚ) : Nat :=
  (Rat.floor (qdiv (qsub hy l.bottom) l.strip_height)).toNat

/-- The recorded branch of `Layer.hit`: bump the layer counter, bump strip
`n`, and append `n` to `hit_strips` when absent. -/
def recordHit (l : Layer) (n : Nat) : Layer :=
  { l with hits := l.hits + 1
           strips := l.strips.set n (l.strips.getD n 0 + 1)
           hit_strips := if n ∈ l.hit_strips then l.hit_strips else l.hit_strips ++ [n] }

/-- `Layer.hit`: wrong `x` raises; out-of-range `y` (including `y = top`)
is silently dropped; otherwise record.  The boolean reports whether the
parent detector's counter was bumped (`self.parent.hit(None, None)`). -/
def layerHit (l : Layer) (hx hy : ℚ) : Except Err (Layer × Bool) :=
  if l.x ≠ hx then .error .wrongLayerX
  else if l.top ≤ hy ∨ hy < l.bottom then .ok (l, false)
  else .ok (recordHit l (hitIndex l hy), true)

/-- `Layer.clear_hits`: zero exactly the strips listed in `hit_strips`,
then empty that list and the layer counter. -/
def clearHits (l : Layer) : Layer :=
  { l with strips := l.hit_strips.foldl (fun s i => s.set i 0) l.strips
           hit_strips := [], hits := 0 }

/-- `LayeredDetector`: position, layers, and its own hit counter. -/
structure Det : Type where
  x : ℚ
  y : ℚ
  layers : List Layer
  hits : Nat
deriving DecidableEq, Repr

/-- `LayeredDetector.__init__`: layers at `x + i * x_step`, where the
`ZeroDivisionError` of a single-layer detector yields step 0. -/
def mkDet (x y height len : ℚ) (numLayers numStrips : Nat) : Det :=
  let xstep := if numLayers = 1 then 0 else qdiv len (qsub (qnat numLayers) 1)
  { x := x, y := y
    layers := (List.range numLayers).map
      (fun i => mkLayer (qadd x (qmul (qnat i) xstep)) y height numStrips)
    hits := 0 }

/-- The `x_step` property: 0 for a single layer, otherwise the distance
between the first two stored layers. -/
def xStepOf (d : Det) : ℚ :=
  match d.layers with
  | a :: b :: _ => qsub b.x a.x
  | _ => 0

/-- Python's `sorted` by `x` (stable; the layer `x`s are distinct in every
constructed detector, so insertion sort agrees with the source's stable
mergesort). -/
def sortLayers (ls : List Layer) : List Layer :=
  ls.insertionSort (fun a b => a.x ≤ b.x)

/-- `LayeredDetector.get_layers(reverse)`. -/
def get_layers (d : Det) (reverse : Bool) : List Layer :=
  if reverse then (sortLayers d.layers).reverse else sortLayers d.layers

/-- `LayeredDetector.propagate_track` with a `LineTrack(a, b)`: hit every
layer at `y = a·x + b`.  Layer mutations commute across distinct layers,
so folding in sorted order and storing the result reproduces the source's
in-place updates. -/
def detPropagateTrack (d : Det) (a b : ℚ) : Except Err Det := do
  let res ← (get_layers d false).foldlM
    (fun (acc : List Layer × Nat) l => do
      let yv := qadd (qmul a l.x) b
      let (l', inc) ← layerHit l l.x yv
      pure (acc.1 ++ [l'], acc.2 + (if inc then 1 else 0)))
    ([], 0)
  pure { d with layers := res.1, hits := d.hits + res.2 }

/-!
## The fit manager (`fitter.py`)
-/

/-- Python `min(xs, key=k)`: the first element with minimal key. -/
def pickMin (l : List Nat) (key : Nat → ℚ) : Option Nat :=
  match l with
  | [] => none
  | h :: t => some (t.foldl (fun b s => if key s < key b then s else b) h)

/-- The hit-consumption block of `FitManager.fit`: a strip holding exactly
one hit is removed from `hit_strips` (its counter untouched), otherwise
its counter is decremented (its membership untouched). -/
def consumeHit (l : Layer) (si : Nat) : Layer :=
  if l.strips.getD si 0 = 1 then { l with hit_strips := l.hit_strips.erase si }
  else { l with strips := l.strips.set si (l.strips.getD si 0 - 1) }

/-- One candidate's treatment on one layer inside `FitManager.fit`:
nearest-strip choice, the 3σ gate, and either a measurement-free step or a
measured step plus hit consumption. -/
def processFitter (l : Layer) (f : KF) : Except Err (Layer × KF) :=
  let py := mget f.x 0 0
  let yerr := mget f.P 0 0
  match pickMin l.hit_strips (fun si => qabs (qsub py (stripY l si))) with
  | none =>
    match stepKF none true f with
    | .ok (_, f') => .ok (l, f')
    | .error e => .error e
  | some si =>
    let my := stripY l si
    if qmul 9 yerr < qmul (qsub my py) (qsub my py) then
      match stepKF none true f with
      | .ok (_, f') => .ok (l, f')
      | .error e => .error e
    else
      match stepKF (some [[my]]) true f with
      | .ok (_, f') => .ok (consumeHit l si, f')
      | .error e => .error e

/-- The per-layer loop over the existing candidates. -/
def fitLayer (l : Layer) (fs : List KF) : Except Err (Layer × List KF) :=
  fs.foldlM
    (fun acc f => do
      let (l', f') ← processFitter acc.1 f
      pure (l', acc.2 ++ [f']))
    (l, ([] : List KF))

/-- Spawning one candidate in `FitManager._new_filters`: clone the
prototype, set state `(y, y/x)ᵀ` with covariance `diag(10, 10)`, and take
one recording step. -/
def spawnOne (proto : KF) (sx sy : ℚ) : Except Err KF :=
  let f0 := { proto with x := [[sy], [qdiv sy sx]], P := [[10, 0], [0, 10]] }
  match stepKF none true f0 with
  | .ok (_, f') => .ok f'
  | .error e => .error e

/-- `FitManager._new_filters`: one candidate per unit of hit multiplicity
on the layer, then `clear_hits`. -/
def spawnFromLayer (proto : KF) (l : Layer) : Except Err (List KF × Layer) := do
  let fs ← l.hit_strips.foldlM
    (fun acc si =>
      (List.range (l.strips.getD si 0)).foldlM
        (fun acc2 _ => do
          let f ← spawnOne proto l.x (stripY l si)
          pure (acc2 ++ [f]))
        acc)
    ([] : List KF)
  pure (fs, clearHits l)

/-- `FitManager` state: the detector, the prototype (already reversed by
the constructor) and the candidate list. -/
structure FitM : Type where
  detector : Det
  filt : KF
  fitters : List KF

/-- `FitManager.__init__`: reverse the prototype once. -/
def mkFitM (det : Det) (filt : KF) : Except Err FitM :=
  match reverseKF filt with
  | none => .error .nonInvertible
  | some f => .ok { detector := det, filt := f, fitters := [] }

/-- The final selection of `FitManager.fit`: keep the candidates with
`len(x.measurements) > 2` (every spawned candidate has stepped with
`add`, so its buffer is a list; `None` placeholders count). -/
def pruneFitters (fs : List KF) : List KF :=
  fs.filter (fun f => 2 < (f.measurements.getD []).length)

/-- `FitManager.fit`: spawn on the first layer of the reverse sweep, then
associate/advance and spawn on each further layer, finally pruning
candidates with fewer than three retained measurements. -/
def fitRun (m : FitM) : Except Err (List KF) :=
  match get_layers m.detector true with
  | [] => .error .emptyDet
  | l0 :: rest => do
    let (fs0, _) ← spawnFromLayer m.filt l0
    let fs ← rest.foldlM
      (fun fs l => do
        let (l', fs') ← fitLayer l fs
        let (newfs, _) ← spawnFromLayer m.filt l'
        pure (fs' ++ newfs))
      fs0
    pure (pruneFitters fs)

/-- The coordinate loop of `FitManager.propagate_tracks`: one point per
yielded state, advancing `x` by `x_step` each time. -/
def coordWalk (xstep : ℚ) : ℚ → List (Mat × Mat) → List (ℚ × ℚ)
  | _, [] => []
  | cx, s :: t => (qadd cx xstep, mget s.1 0 0) :: coordWalk xstep (qadd cx xstep) t

/-- `FitManager.propagate_tracks` for one candidate: reverse, record the
initial point, one alignment step, then iterate the filter to
exhaustion. -/
def propagate_one (xstep startx : ℚ) (fuel : Nat) (f : KF) : Except Err (List (ℚ × ℚ)) :=
  match reverseKF f with
  | none => .error .nonInvertible
  | some f1 =>
    let cx := qsub startx xstep
    let e0 := (cx, mget f1.x 0 0)
    match stepKF none false f1 with
    | .error e => .error e
    | .ok (s, f2) =>
      let e1 := (qadd cx xstep, mget s.1 0 0)
      match iterTW fuel f2 with
      | .error e => .error e
      | .ok (sts, _) => .ok (e0 :: e1 :: coordWalk xstep (qadd cx xstep) sts)

/-- `FitManager.propagate_tracks` over all surviving candidates. -/
def propagateAll (d : Det) (fs : List KF) (fuel : Nat) : Except Err (List (List (ℚ × ℚ))) :=
  fs.foldlM
    (fun acc f => do
      let pts ← propagate_one (xStepOf d) d.x fuel f
      pure (acc ++ [pts]))
    []

/-!
## The cached matrix view (`matrix.py`, `value` / `T` / `I`)

For the caching claims the matrix object is modelled with its `_value`,
recorded dimensions and both caches.  Reading `value` (which row indexing
goes through) clears the caches, exactly as the property getter does.
-/

/-- A matrix object with its lazily cached transpose and inverse. -/
structure CMatrix : Type where
  val : Mat
  dimx : Nat
  dimy : Nat
  cT : Option Mat
  cI : Option Mat
deriving DecidableEq, Repr

/-- `Matrix.__init__` from a list of rows. -/
def mkCMatrix (v : Mat) : CMatrix :=
  { val := v, dimx := v.length, dimy := (v.headD []).length, cT := none, cI := none }

/-- The `value` property getter: clears both caches and hands out the
underlying value. -/
def valueGet (m : CMatrix) : Mat × CMatrix :=
  (m.val, { m with cT := none, cI := none })

/-- The `value` property setter: replace the value, refresh the recorded
dimensions, clear both caches. -/
def valueSet (m : CMatrix) (v : Mat) : CMatrix :=
  { m with val := v, dimx := v.length, dimy := (v.headD []).length, cT := none, cI := none }

/-- The element write `m[i][j] = v`: row access through `__getitem__`
(hence through the `value` getter, clearing the caches), then an in-place
write into the shared row. -/
def setElem (m : CMatrix) (i j : Nat) (v : ℚ) : CMatrix :=
  { (valueGet m).2 with val := mset (valueGet m).1 i j v }

/-- `Matrix._transpose`, which ranges over the recorded dimensions. -/
def ctransposeVal (m : CMatrix) : Mat :=
  (List.range m.dimy).map (fun c => (List.range m.dimx).map (fun r => mget m.val r c))

/-- The `T` property: serve the cache when present, else compute and
cache. -/
def readT (m : CMatrix) : Mat × CMatrix :=
  match m.cT with
  | some t => (t, m)
  | none => (ctransposeVal m, { m with cT := some (ctransposeVal m) })

/-- The `I` property: serve the cache when present, else LU-invert the
current value (a `None` result is returned but never cached, as in the
source where `_I` simply stays `None`). -/
def readI (m : CMatrix) : Option Mat × CMatrix :=
  match m.cI with
  | some w => (some w, m)
  | none =>
    match minv m.val with
    | some w => (some w, { m with cI := some w })
    | none => (none, m)

/-!
## Claims about the matrix caches and the Kalman step
-/

/-- Claim C7: after any mutation of the underlying value — a wholesale
assignment through the `value` setter or an element write through
indexing — the cached transpose and inverse are invalidated, so that a
subsequently read transpose and inverse are recomputed from, and reflect,
the mutated value. -/
theorem C7_cache_invalidation (m : CMatrix) (i j : Nat) (v : ℚ) (w : Mat) :
    (readT (setElem m i j v)).1 = ctransposeVal (setElem m i j v)
    ∧ (readI (setElem m i j v)).1 = minv (mset m.val i j v)
    ∧ (readT (valueSet m w)).1 = ctransposeVal (valueSet m w)
    ∧ (readI (valueSet m w)).1 = minv w := by
  refine ⟨rfl, ?_, rfl, ?_⟩
  · show (readI (setElem m i j v)).1 = minv (mset m.val i j v)
    rw [readI]
    cases h : minv (setElem m i j v).val <;> simp_all [setElem, valueGet]
  · show (readI (valueSet m w)).1 = minv w
    rw [readI]
    cases h : minv (valueSet m w).val <;> simp_all [valueSet]

/-- Claim C9: a step without a measurement produces exactly the `(x, P)`
of `predict` alone; a step with measurement `z` produces exactly the
`(x, P)` of `update z` followed by `predict`; in both cases the step
returns the resulting state. -/
theorem C9_step_is_update_then_predict (f : KF) (z : Mat) :
    (stepKF (some z) false f).map (fun p => p.1) =
      (update z f).map (fun g => ((predict g).x, (predict g).P))
    ∧ (stepKF none false f).map (fun p => p.1) = .ok ((predict f).x, (predict f).P)
    ∧ (∀ s f', stepKF (some z) false f = .ok (s, f') → s = (f'.x, f'.P))
    ∧ (∀ s f', stepKF none false f = .ok (s, f') → s = (f'.x, f'.P)) := by
  refine ⟨?_, rfl, ?_, ?_⟩
  · cases h : update z f with
    | error e => simp [stepKF, h, Except.map]
    | ok f2 => simp [stepKF, h, Except.map, bumpCounter]
  · intro s f' h
    exact (stepKF_ok_fields _ _ _ _ _ h).2.2.2
  · intro s f' h
    exact (stepKF_ok_fields _ _ _ _ _ h).2.2.2

/-- Claim C3 (amended): with `add` set, a measurement `z` is appended to
an existing buffer; on the first such call, when no buffer exists, the
buffer is created holding only the synthetic starting measurement built
from the current state's first row — `z` itself is not recorded, the seed
standing as that call's single entry. -/
theorem C3_first_add_seeds_buffer (f : KF) (z : Mat) (l : List (Option Mat)) :
    (f.measurements = none → ∀ s f', stepKF (some z) true f = .ok (s, f') →
      f'.measurements = some [some (seedMeas f)])
    ∧ (f.measurements = some l → ∀ s f', stepKF (some z) true f = .ok (s, f') →
      f'.measurements = some (l ++ [some z])) := by
  constructor
  · intro hm s f' h
    have hf := (stepKF_ok_fields _ _ _ _ _ h).2.1
    simpa [recordMeas, hm] using hf
  · intro hm s f' h
    have hf := (stepKF_ok_fields _ _ _ _ _ h).2.1
    simpa [recordMeas, hm] using hf

/-- Counterexample to claim C3 as stated: on the first recording call the
measurement `z = [[5]]` is not recorded — the buffer afterwards holds only
the synthetic seed `[[7]]` built from the state. -/
theorem C3_counterexample :
    (stepKF (some [[5]]) true kfc).map (fun p => p.2.measurements) =
      .ok (some [some [[7]]])
    ∧ ¬ ((some [[(5 : ℚ)]] : Option Mat) ∈ [some ([[(7 : ℚ)]] : Mat)]) := by
  constructor
  · decide
  · decide

/-- Witness for the amended C3 at the concrete filter `kfc`. -/
theorem C3_witness :
    kfc.measurements = none
    ∧ ((stepKF (some [[5]]) true kfc).map (fun p => p.2.measurements) =
        .ok (some [some (seedMeas kfc)])) := by
  refine ⟨rfl, ?_⟩
  cases hs : stepKF (some [[5]]) true kfc with
  | error e =>
    have hok : (stepKF (some [[5]]) true kfc).isOk = true := by decide
    rw [hs] at hok
    exact absurd hok (by simp [Except.isOk, Except.toBool])
  | ok p =>
    have h := ((C3_first_add_seeds_buffer kfc [[5]] []).1 rfl) p.1 p.2 (by rw [hs])
    simp [Except.map, h]

/-- Claim C10: with an existing buffer, `step(None, add=True)` appends the
placeholder `None`; the pruning threshold of `FitManager.fit` counts these
placeholders, and `measurements_list` projects them as `None` rather than
a rounded float. -/
theorem C10_none_placeholder_counted (f : KF) (l : List (Option Mat))
    (h : f.measurements = some l) :
    ∃ s f', stepKF none true f = .ok (s, f')
      ∧ f'.measurements = some (l ++ [none])
      ∧ (f'.measurements.getD []).length = l.length + 1
      ∧ measurements_list f' = measurements_list f ++ [none]
      ∧ (∀ fs : List KF, f' ∈ pruneFitters fs ↔ f' ∈ fs ∧ 2 < l.length + 1) := by
  refine ⟨_, _, rfl, ?_⟩
  have hm : (bumpCounter (predict (recordMeas none f))).measurements = some (l ++ [none]) := by
    simp [bumpCounter, predict, recordMeas, h]
  refine ⟨hm, by simp [hm], ?_, ?_⟩
  · simp [measurements_list, hm, h]
  · intro fs
    simp [pruneFitters, List.mem_filter, hm]

/-!
## Claims about the layer hit protocol and the hit-strips invariant
-/

theorem ratFloor_eq (q : ℚ) : Rat.floor q = ⌊q⌋ := by
  have h1 : Rat.floor q ≤ ⌊q⌋ := Int.le_floor.mpr (Rat.le_floor.mp (le_refl _))
  have h2 : ⌊q⌋ ≤ Rat.floor q := Rat.le_floor.mpr (Int.le_floor.mp (le_refl _))
  omega

/-- Geometric well-formedness of a layer, as every constructed layer with
at least one strip and positive height satisfies it: positive strip
height, at least one strip, and the top sitting `num_strips` strip
heights above the bottom. -/
def LayerWf (l : Layer) : Prop :=
  0 < l.strip_height ∧ l.strips.length ≠ 0
  ∧ l.top = qadd l.bottom (qmul (qnat l.strips.length) l.strip_height)

/-- Inside the recorded branch the strip index equals the mathematical
floor and stays below the strip count. -/
theorem hitIndex_bounds (l : Layer) (hy : ℚ) (hw : LayerWf l)
    (h1 : l.bottom ≤ hy) (h2 : hy < l.top) :
    ((hitIndex l hy : ℤ) = Rat.floor (qdiv (qsub hy l.bottom) l.strip_height))
    ∧ hitIndex l hy < l.strips.length := by
  obtain ⟨hh, hn, htop⟩ := hw
  have hq' : qdiv (qsub hy l.bottom) l.strip_height = (hy - l.bottom) / l.strip_height := by
    rw [qdiv_eq, qsub_eq]
  have h0 : (0 : ℚ) ≤ qdiv (qsub hy l.bottom) l.strip_height := by
    rw [hq']
    exact div_nonneg (sub_nonneg.mpr h1) hh.le
  have hlt : qdiv (qsub hy l.bottom) l.strip_height < (l.strips.length : ℚ) := by
    rw [hq', div_lt_iff₀ hh]
    rw [htop, qadd_eq, qmul_eq, qnat_eq] at h2
    linarith
  have hfl : Rat.floor (qdiv (qsub hy l.bottom) l.strip_height) =
      ⌊qdiv (qsub hy l.bottom) l.strip_height⌋ := ratFloor_eq _
  have hnn : (0 : ℤ) ≤ ⌊qdiv (qsub hy l.bottom) l.strip_height⌋ := Int.floor_nonneg.mpr h0
  have hup : ⌊qdiv (qsub hy l.bottom) l.strip_height⌋ < (l.strips.length : ℤ) :=
    Int.floor_lt.mpr (by exact_mod_cast hlt)
  constructor
  · rw [hitIndex, hfl]
    omega
  · rw [hitIndex, hfl]
    omega

/-- Claim C6: `layer.hit(x, y)` fails with the wrong-layer error when `x`
differs from the layer's `x`; silently drops hits at or above the top or
below the bottom (in particular `y = top`); and otherwise records the hit
on strip `floor((y - bottom)/strip_height)` — bumping the layer counter
and that strip's counter and reporting the parent-detector bump — so that
`y = bottom` lands on strip 0. -/
theorem C6_layer_hit_contract (l : Layer) (hx hy : ℚ) (hw : LayerWf l) :
    (hx ≠ l.x → layerHit l hx hy = .error .wrongLayerX)
    ∧ (hx = l.x → (l.top ≤ hy ∨ hy < l.bottom) → layerHit l hx hy = .ok (l, false))
    ∧ (hx = l.x → l.bottom ≤ hy → hy < l.top →
        layerHit l hx hy = .ok (recordHit l (hitIndex l hy), true)
        ∧ (recordHit l (hitIndex l hy)).hits = l.hits + 1
        ∧ (recordHit l (hitIndex l hy)).strips.getD (hitIndex l hy) 0 =
            l.strips.getD (hitIndex l hy) 0 + 1
        ∧ ((hitIndex l hy : ℤ)) = Rat.floor (qdiv (qsub hy l.bottom) l.strip_height)
        ∧ (hy = l.bottom → hitIndex l hy = 0)) := by
  refine ⟨?_, ?_, ?_⟩
  · intro hne
    rw [layerHit, if_pos (fun h => hne h.symm)]
  · intro he hout
    rw [layerHit, if_neg (by rw [he]; exact fun h => h rfl), if_pos hout]
  · intro he hlo hhi
    have hout : ¬ (l.top ≤ hy ∨ hy < l.bottom) := by
      push_neg
      exact ⟨lt_of_not_le fun h => absurd hhi (not_lt.mpr h), hlo⟩
    obtain ⟨hcast, hlt⟩ := hitIndex_bounds l hy hw hlo hhi
    refine ⟨?_, rfl, ?_, hcast, ?_⟩
    · rw [layerHit, if_neg (by rw [he]; exact fun h => h rfl), if_neg hout]
    · show (l.strips.set (hitIndex l hy) (l.strips.getD (hitIndex l hy) 0 + 1)).getD
          (hitIndex l hy) 0 = l.strips.getD (hitIndex l hy) 0 + 1
      exact getD_set_self _ _ _ _ hlt
    · intro hb
      have hzero : qdiv (qsub hy l.bottom) l.strip_height = 0 := by
        rw [qdiv_eq, qsub_eq, hb, sub_self, zero_div]
      rw [hitIndex, hzero]
      rfl

/-- A layer with a single strip holding exactly one hit (as one recorded
hit leaves it). -/
def lOne : Layer := { mkLayer 1 0 1 1 with strips := [1], hit_strips := [0], hits := 1 }

/-- A layer with a single strip holding two hits. -/
def lTwo : Layer := { mkLayer 1 0 1 1 with strips := [2], hit_strips := [0], hits := 2 }

/-- Witness for C6 at a concrete layer: the in-range hit `y = bottom` is
recorded on strip 0 and the boundary hit `y = top` is dropped. -/
theorem C6_witness :
    LayerWf lOne
    ∧ ((1 : ℚ) = lOne.x → lOne.bottom ≤ lOne.bottom → lOne.bottom < lOne.top →
        layerHit lOne 1 lOne.bottom = .ok (recordHit lOne (hitIndex lOne lOne.bottom), true)
        ∧ (recordHit lOne (hitIndex lOne lOne.bottom)).hits = lOne.hits + 1
        ∧ (recordHit lOne (hitIndex lOne lOne.bottom)).strips.getD
            (hitIndex lOne lOne.bottom) 0 =
            lOne.strips.getD (hitIndex lOne lOne.bottom) 0 + 1
        ∧ ((hitIndex lOne lOne.bottom : ℤ)) =
            Rat.floor (qdiv (qsub lOne.bottom lOne.bottom) lOne.strip_height)
        ∧ (lOne.bottom = lOne.bottom → hitIndex lOne lOne.bottom = 0))
    ∧ ((1 : ℚ) = lOne.x → (lOne.top ≤ lOne.top ∨ lOne.top < lOne.bottom) →
        layerHit lOne 1 lOne.top = .ok (lOne, false)) :=
  ⟨by refine ⟨by decide, by decide, by decide⟩,
    (C6_layer_hit_contract lOne 1 lOne.bottom
      ⟨by decide, by decide, by decide⟩).2.2,
    (C6_layer_hit_contract lOne 1 lOne.top
      ⟨by decide, by decide, by decide⟩).2.1⟩

/-- Claim C1 (amended): on a gate-accepted layer the manager advances the
filter with the measurement and consumes one hit from the chosen strip —
but consumption means: a strip holding exactly one hit is removed from
`hit_strips` with its counter left at 1 (not decremented to 0), while a
strip holding more keeps its membership and has its counter decremented
by one. -/
theorem C1_accept_consumes_hit (l : Layer) (f : KF) (si : Nat)
    (hpick : pickMin l.hit_strips (fun s => qabs (qsub (mget f.x 0 0) (stripY l s))) = some si)
    (hgate : ¬ (qmul 9 (mget f.P 0 0) <
      qmul (qsub (stripY l si) (mget f.x 0 0)) (qsub (stripY l si) (mget f.x 0 0)))) :
    processFitter l f =
      (match stepKF (some [[stripY l si]]) true f with
       | .ok (_, f') => .ok (consumeHit l si, f')
       | .error e => .error e)
    ∧ (l.strips.getD si 0 = 1 →
        consumeHit l si = { l with hit_strips := l.hit_strips.erase si }
        ∧ (consumeHit l si).strips.getD si 0 = 1)
    ∧ (∀ c, l.strips.getD si 0 = c → 1 < c → si < l.strips.length →
        (consumeHit l si).strips.getD si 0 = c - 1
        ∧ (consumeHit l si).hit_strips = l.hit_strips) := by
  refine ⟨?_, ?_, ?_⟩
  · rw [processFitter]
    rw [hpick]
    simp only [if_neg hgate]
  · intro hc
    rw [consumeHit, if_pos hc]
    exact ⟨rfl, hc⟩
  · intro c hc hgt hlen
    rw [consumeHit, if_neg (by omega)]
    subst hc
    exact ⟨getD_set_self _ _ _ _ hlen, rfl⟩

/-- Counterexample to claim C1 as stated: on a gate-accepted strip whose
count is 1, the count is left at 1 rather than decremented to 0, even
though the strip leaves `hit_strips`. -/
theorem C1_counterexample :
    (processFitter lOne kfc).map (fun p => (p.1.strips.getD 0 0, p.1.hit_strips)) =
      .ok (1, [])
    ∧ (1 : Nat) ≠ 0 := by
  constructor
  · decide
  · decide

/-- Witness for the amended C1 at the two-hit strip of `lTwo` and the
concrete filter `kfc` (whose prediction 7 passes the 3σ gate of the strip
centred at 0). -/
theorem C1_witness :
    processFitter lTwo kfc =
      (match stepKF (some [[stripY lTwo 0]]) true kfc with
       | .ok (_, f') => .ok (consumeHit lTwo 0, f')
       | .error e => .error e)
    ∧ (lTwo.strips.getD 0 0 = 1 →
        consumeHit lTwo 0 = { lTwo with hit_strips := lTwo.hit_strips.erase 0 }
        ∧ (consumeHit lTwo 0).strips.getD 0 0 = 1)
    ∧ (∀ c, lTwo.strips.getD 0 0 = c → 1 < c → 0 < lTwo.strips.length →
        (consumeHit lTwo 0).strips.getD 0 0 = c - 1
        ∧ (consumeHit lTwo 0).hit_strips = lTwo.hit_strips) :=
  C1_accept_consumes_hit lTwo kfc 0 (by decide) (by decide)

/-- The `hit_strips` invariant of a layer: a strip index is listed exactly
when it is a strip of this layer holding at least one hit. -/
def layerInv (l : Layer) : Prop :=
  ∀ i : Nat, i ∈ l.hit_strips ↔ (i < l.strips.length ∧ 0 < l.strips.getD i 0)

/-- Zeroing the listed strips, elementwise effect. -/
theorem foldl_setzero_getD (L : List Nat) (s : List Nat) (i : Nat) :
    (L.foldl (fun acc j => acc.set j 0) s).getD i 0 = if i ∈ L then 0 else s.getD i 0 := by
  induction L generalizing s with
  | nil => simp
  | cons a t ih =>
    simp only [List.foldl_cons]
    rw [ih]
    by_cases hmem : i ∈ t
    · simp [hmem]
    · simp only [if_neg hmem]
      by_cases hia : i = a
      · subst hia
        simp only [List.mem_cons, true_or, if_pos]
        rcases Nat.lt_or_ge i s.length with hlt | hge
        · rw [getD_set_self _ _ _ _ hlt]
        · rw [getD_set_out _ _ _ _ hge, List.getD_eq_default _ _ hge]
      · rw [getD_set_ne _ _ _ _ _ (fun h => hia h.symm)]
        simp [List.mem_cons, hia, hmem]

theorem foldl_setzero_length (L : List Nat) (s : List Nat) :
    (L.foldl (fun acc j => acc.set j 0) s).length = s.length := by
  induction L generalizing s with
  | nil => rfl
  | cons a t ih => simp [List.foldl_cons, ih]

/-- Claim C2 (amended): `layer.hit` and `clear_hits` (and thus the
spawning step, which ends in `clear_hits`) preserve the `hit_strips`
invariant; the hit consumption of `FitManager.fit` preserves only its
forward direction — a listed strip belongs to the layer and holds a hit —
because consuming a strip whose count is 1 delists it while leaving its
count at 1. -/
theorem C2_hit_strips_invariant :
    (∀ l hx hy l' b, LayerWf l → layerHit l hx hy = .ok (l', b) → layerInv l → layerInv l')
    ∧ (∀ l, layerInv l → layerInv (clearHits l))
    ∧ (∀ proto l fs l', spawnFromLayer proto l = .ok (fs, l') → layerInv l → layerInv l')
    ∧ (∀ l si, layerInv l → ∀ i, i ∈ (consumeHit l si).hit_strips →
        i < (consumeHit l si).strips.length ∧ 0 < (consumeHit l si).strips.getD i 0) := by
  have hclear : ∀ l, layerInv l → layerInv (clearHits l) := by
    intro l hinv i
    constructor
    · intro hmem
      exact absurd hmem (List.not_mem_nil i)
    · rintro ⟨hlen, hpos⟩
      rw [show (clearHits l).strips = l.hit_strips.foldl (fun acc j => acc.set j 0) l.strips
          from rfl, foldl_setzero_getD] at hpos
      by_cases hm : i ∈ l.hit_strips
      · rw [if_pos hm] at hpos
        omega
      · rw [if_neg hm] at hpos
        have hlen' : i < l.strips.length := by
          have := foldl_setzero_length l.hit_strips l.strips
          simpa [clearHits, this] using hlen
        exact absurd ((hinv i).mpr ⟨hlen', hpos⟩) hm
  have hrec : ∀ (l : Layer) (n : Nat), n < l.strips.length → layerInv l → layerInv (recordHit l n) := by
    intro l n hlt hinv
    have hlen : (recordHit l n).strips.length = l.strips.length := by simp [recordHit]
    have hmemIff : ∀ i, i ∈ (recordHit l n).hit_strips ↔ (i ∈ l.hit_strips ∨ i = n) := by
      intro i
      show i ∈ (if n ∈ l.hit_strips then l.hit_strips else l.hit_strips ++ [n]) ↔ _
      by_cases hm : n ∈ l.hit_strips
      · rw [if_pos hm]
        constructor
        · exact fun h => Or.inl h
        · rintro (h | rfl)
          · exact h
          · exact hm
      · rw [if_neg hm]
        simp [List.mem_append]
    intro i
    rw [hmemIff, hlen]
    by_cases hin : i = n
    · subst hin
      constructor
      · intro _
        refine ⟨hlt, ?_⟩
        rw [show (recordHit l i).strips = l.strips.set i (l.strips.getD i 0 + 1) from rfl,
          getD_set_self _ _ _ _ hlt]
        omega
      · intro _
        exact Or.inr rfl
    · rw [show (recordHit l n).strips = l.strips.set n (l.strips.getD n 0 + 1) from rfl,
        getD_set_ne _ _ _ _ _ (fun h => hin h.symm)]
      constructor
      · rintro (h | h)
        · exact (hinv i).mp h
        · exact absurd h hin
      · intro h
        exact Or.inl ((hinv i).mpr h)
  refine ⟨?_, hclear, ?_, ?_⟩
  · intro l hx hy l' b hw h hinv
    rw [layerHit] at h
    by_cases hx1 : l.x ≠ hx
    · rw [if_pos hx1] at h
      exact absurd h (by simp)
    · rw [if_neg hx1] at h
      by_cases hout : l.top ≤ hy ∨ hy < l.bottom
      · rw [if_pos hout] at h
        obtain ⟨rfl, rfl⟩ := Prod.mk.inj (Except.ok.inj h)
        exact hinv
      · rw [if_neg hout] at h
        obtain ⟨rfl, rfl⟩ := Prod.mk.inj (Except.ok.inj h)
        push_neg at hout
        exact hrec l _ (hitIndex_bounds l hy hw hout.2 hout.1).2 hinv
  · intro proto l fs l' h hinv
    rw [spawnFromLayer] at h
    cases hX : l.hit_strips.foldlM
        (fun acc si =>
          (List.range (l.strips.getD si 0)).foldlM
            (fun acc2 _ => do
              let f ← spawnOne proto l.x (stripY l si)
              pure (acc2 ++ [f]))
            acc)
        ([] : List KF) with
    | error e => rw [hX] at h; exact absurd h (by simp [Except.bind])
    | ok fs0 =>
      rw [hX] at h
      have h2 : fs0 = fs ∧ clearHits l = l' := by simpa using h
      obtain ⟨_, rfl⟩ := h2
      exact hclear l hinv
  · intro l si hinv i h
    by_cases hc : l.strips.getD si 0 = 1
    · rw [consumeHit, if_pos hc] at h ⊢
      exact (hinv i).mp (List.mem_of_mem_erase h)
    · rw [consumeHit, if_neg hc] at h ⊢
      obtain ⟨hlen, hpos⟩ := (hinv i).mp h
      refine ⟨by simpa using hlen, ?_⟩
      by_cases hisi : i = si
      · subst hisi
        rw [getD_set_self _ _ _ _ hlen]
        omega
      · rw [getD_set_ne _ _ _ _ _ (fun hh => hisi hh.symm)]
        exact hpos

/-- `lOne` satisfies the invariant. -/
theorem lOne_inv : layerInv lOne := by
  intro i
  constructor
  · intro h
    have : i = 0 := by simpa [lOne] using h
    subst this
    exact ⟨by decide, by decide⟩
  · rintro ⟨hlen, _⟩
    have : i = 0 := by
      have : lOne.strips.length = 1 := by decide
      omega
    subst this
    simp [lOne]

/-- Counterexample to claim C2 as stated: the invariant holds on `lOne`,
and the fit manager's hit consumption on its only strip breaks it — the
strip keeps count 1 but leaves `hit_strips`. -/
theorem C2_counterexample : layerInv lOne ∧ ¬ layerInv (consumeHit lOne 0) := by
  refine ⟨lOne_inv, ?_⟩
  intro h
  have h0 := (h 0).mpr ⟨by decide, by decide⟩
  have : (consumeHit lOne 0).hit_strips = [] := by decide
  rw [this] at h0
  exact absurd h0 (List.not_mem_nil 0)

/-- Witness for the amended C2: a concrete recorded hit and a concrete
`clear_hits`, both preserving the invariant, and the forward direction
after a concrete consumption. -/
theorem C2_witness :
    layerInv (clearHits lOne)
    ∧ (∀ i, i ∈ (consumeHit lTwo 0).hit_strips →
        i < (consumeHit lTwo 0).strips.length ∧ 0 < (consumeHit lTwo 0).strips.getD i 0) := by
  constructor
  · exact C2_hit_strips_invariant.2.1 lOne lOne_inv
  · intro i hi
    refine C2_hit_strips_invariant.2.2.2 lTwo 0 ?_ i hi
    intro j
    constructor
    · intro h
      have : j = 0 := by simpa [lTwo] using h
      subst this
      exact ⟨by decide, by decide⟩
    · rintro ⟨hlen, _⟩
      have : j = 0 := by
        have : lTwo.strips.length = 1 := by decide
        omega
      subst this
      simp [lTwo]

/-- Witness for C10 at a concrete filter whose buffer holds two entries. -/
theorem C10_witness :
    ∃ s f', stepKF none true { kfc with measurements := some [some [[1]], none] } = .ok (s, f')
      ∧ f'.measurements = some ([some [[1]], none] ++ [none])
      ∧ (f'.measurements.getD []).length = 2 + 1
      ∧ measurements_list f' =
          measurements_list { kfc with measurements := some [some [[1]], none] } ++ [none]
      ∧ (∀ fs : List KF, f' ∈ pruneFitters fs ↔ f' ∈ fs ∧ 2 < 2 + 1) :=
  C10_none_placeholder_counted { kfc with measurements := some [some [[1]], none] }
    [some [[1]], none] rfl

/-!
## The length of a propagated track
-/

theorem coordWalk_length (xs : ℚ) (l : List (Mat × Mat)) :
    ∀ c, (coordWalk xs c l).length = l.length := by
  induction l with
  | nil => intro c; rfl
  | cons s t ih => intro c; simp [coordWalk, ih]

/-- Claim C4 (amended): the point sequence `propagate_tracks` emits for a
candidate that leaves `fit` (empty reverse buffer, `r ≥ 1` retained
measurements) has length `r + 2` — the initial point, the alignment step,
and one point per retained measurement — not `num_layers + 1`; for a
candidate spawned on the first processed layer `r = num_layers`, giving
`num_layers + 2` points.  Hypotheses: the three `A` inversions along the
way exist and no step raises a numeric failure. -/
theorem C4_propagate_point_count (f : KF) (r fuel : Nat) (xs sx : ℚ) (A1 A2 A3 : Mat)
    (hrm : f.reverse_measurements = [])
    (hr : (f.measurements.getD []).length = r)
    (hr1 : 1 ≤ r)
    (hfuel : r + 2 ≤ fuel)
    (h1 : minv f.A = some A1) (h2 : minv A1 = some A2) (h3 : minv A2 = some A3) :
    propagate_one xs sx fuel f ≠ .error .fuelOut
    ∧ ∀ pts, propagate_one xs sx fuel f = .ok pts → pts.length = r + 2 := by
  cases hm : f.measurements with
  | none =>
    rw [hm] at hr
    simp at hr
    omega
  | some l =>
    rw [hm] at hr
    simp only [Option.getD_some] at hr
    have hlne : l ≠ [] := by
      intro h
      rw [h] at hr
      simp at hr
      omega
    have hrev1 : reverseKF f = some { f with A := A1, rev := !f.rev } := by
      rw [reverseKF, h1, Option.map_some']
    have hstep : stepKF none false { f with A := A1, rev := !f.rev } =
        .ok (((bumpCounter (predict { f with A := A1, rev := !f.rev })).x,
              (bumpCounter (predict { f with A := A1, rev := !f.rev })).P),
             bumpCounter (predict { f with A := A1, rev := !f.rev })) := rfl
    have hprop : propagate_one xs sx fuel f =
        (match iterTW fuel (bumpCounter (predict { f with A := A1, rev := !f.rev })) with
         | .error e => .error e
         | .ok (sts, _) =>
           .ok ((qsub sx xs, mget ({ f with A := A1, rev := !f.rev } : KF).x 0 0)
             :: (qadd (qsub sx xs) xs,
                 mget (bumpCounter (predict { f with A := A1, rev := !f.rev })).x 0 0)
             :: coordWalk xs (qadd (qsub sx xs) xs) sts)) := by
      simp only [propagate_one, hrev1, hstep]
    have hrev2 : reverseKF (bumpCounter (predict { f with A := A1, rev := !f.rev })) =
        some { bumpCounter (predict { f with A := A1, rev := !f.rev }) with
               A := A2,
               rev := !(bumpCounter (predict { f with A := A1, rev := !f.rev })).rev } := by
      rw [reverseKF]
      show (minv A1).map _ = _
      rw [h2, Option.map_some']
    have hiter : iterTW fuel (bumpCounter (predict { f with A := A1, rev := !f.rev })) =
        runTW fuel { bumpCounter (predict { f with A := A1, rev := !f.rev }) with
                     A := A2,
                     rev := !(bumpCounter (predict { f with A := A1, rev := !f.rev })).rev } := by
      rw [iterTW, if_neg ?_, hrev2]
      show ¬ ((f.measurements.getD []).isEmpty = true)
      rw [hm]
      simpa using hlne
    rcases runTW_after_swap
        { bumpCounter (predict { f with A := A1, rev := !f.rev }) with
          A := A2,
          rev := !(bumpCounter (predict { f with A := A1, rev := !f.rev })).rev }
        l fuel A3 hrm hm hlne h3 (by omega)
      with ⟨e, he, heq⟩ | ⟨sts, fin, hsl, hA, heq⟩
    · constructor
      · rw [hprop, hiter, heq]
        intro hcon
        rcases he with rfl | rfl <;> simp at hcon
      · intro pts hok
        rw [hprop, hiter, heq] at hok
        exact absurd hok (by simp)
    · constructor
      · rw [hprop, hiter, heq]
        simp
      · intro pts hok
        rw [hprop, hiter, heq] at hok
        simp only [Except.ok.injEq] at hok
        rw [← hok]
        simp [coordWalk_length, hsl, hr]

/-- The detector of the concrete refutation run: 3 layers at `x = 1, 2, 3`
(one strip each, height 1, centred on `y = 0`). -/
def det4 : Det := mkDet 1 0 1 2 3 1

/-- The filter prototype of the concrete refutation run. -/
def proto4 : KF :=
  mkKF [[1, 1], [0, 1]] [[1, 0]] [[0], [0]] [[1, 0], [0, 1]] [[0, 0], [0, 0]] [[1]]

/-- The full pipeline on `det4`: propagate one flat track, fit, propagate
the fitted tracks back, and report the per-track point counts. -/
def c4pipeline : Except Err (List Nat) := do
  let d ← detPropagateTrack det4 0 0
  let m ← mkFitM d proto4
  let fs ← fitRun m
  let tracks ← propagateAll d fs 10
  pure (tracks.map List.length)

set_option maxRecDepth 100000 in
/-- Counterexample to claim C4 as stated: on the 3-layer detector the one
surviving candidate's propagated sequence has 5 points, not
`num_layers + 1 = 4`. -/
theorem C4_counterexample :
    c4pipeline = .ok [5] ∧ det4.layers.length = 3 ∧ (5 : Nat) ≠ 3 + 1 := by
  refine ⟨by decide, by decide, by decide⟩

/-- Witness for the amended C4 at a concrete fitted candidate with three
retained measurements (one a gated-miss placeholder): 5 = 3 + 2 points. -/
theorem C4_witness :
    propagate_one 1 1 5 { kfc with measurements := some [some [[1]], none, some [[2]]] } ≠
      .error .fuelOut
    ∧ ∀ pts, propagate_one 1 1 5 { kfc with measurements := some [some [[1]], none, some [[2]]] } =
        .ok pts → pts.length = 3 + 2 :=
  C4_propagate_point_count { kfc with measurements := some [some [[1]], none, some [[2]]] }
    3 5 1 1 [[1, -1], [0, 1]] [[1, 1], [0, 1]] [[1, -1], [0, 1]]
    (by decide) (by decide) (by decide) (by decide) (by decide) (by decide) (by decide)

/-!
## Triangularity of the Crout decomposition

The source builds `L` from a zero matrix writing only at or below the
diagonal of the columns it visits, and `U` from an identity writing only
at or to the right of the diagonal of the visited rows; the lemmas below
track this through the three nested loops.
-/

theorem mget_oob_row (m : Mat) (r c : Nat) (h : m.length ≤ r) : mget m r c = 0 := by
  rw [mget]
  have : m.getD r [] = [] := by
    rw [List.getD_eq_getElem?_getD, List.getElem?_eq_none h]
    rfl
  rw [this]
  rfl

theorem mget_mset_oob (m : Mat) (i j : Nat) (v : ℚ) (r c : Nat) (h : m.length ≤ i) :
    mget (mset m i j v) r c = mget m r c := by
  rw [mset, List.set_eq_of_length_le h]

theorem getD_map_zero (b c : Nat) : ((List.range b).map (fun _ => (0 : ℚ))).getD c 0 = 0 := by
  rcases Nat.lt_or_ge c b with h | h
  · rw [List.getD_eq_getElem?_getD, List.getElem?_map]
    simp [List.getElem?_range h]
  · rw [List.getD_eq_getElem?_getD, List.getElem?_map,
      List.getElem?_eq_none (by simpa using h)]
    rfl

theorem mget_mzero (a b r c : Nat) : mget (mzero a b) r c = 0 := by
  rcases Nat.lt_or_ge r a with h | h
  · rw [mget, mzero]
    have : ((List.range a).map (fun _ => (List.range b).map (fun _ => (0 : ℚ)))).getD r [] =
        (List.range b).map (fun _ => (0 : ℚ)) := by
      rw [List.getD_eq_getElem?_getD, List.getElem?_map]
      simp [List.getElem?_range h]
    rw [this]
    exact getD_map_zero b c
  · exact mget_oob_row _ _ _ (by simp [mzero]; omega)

theorem wf_mzero (a b : Nat) : Wf (mzero a b) a b := by
  constructor
  · simp [mzero]
  · intro r hr
    rw [mzero] at hr
    obtain ⟨_, _, rfl⟩ := List.mem_map.mp hr
    simp

theorem foldl_msetdiag_spec (d : Nat) (S : List Nat) :
    ∀ (m : Mat) (r c : Nat), Wf m d d →
    Wf (S.foldl (fun mm i => mset mm i i 1) m) d d
    ∧ mget (S.foldl (fun mm i => mset mm i i 1) m) r c =
        (if r = c ∧ r ∈ S ∧ r < d then 1 else mget m r c) := by
  induction S with
  | nil =>
    intro m r c hwf
    refine ⟨hwf, ?_⟩
    simp
  | cons a t ih =>
    intro m r c hwf
    obtain ⟨hwf', hval⟩ := ih (mset m a a 1) r c (hwf.mset a a 1)
    refine ⟨hwf', ?_⟩
    rw [List.foldl_cons, hval]
    by_cases h1 : r = c ∧ r ∈ t ∧ r < d
    · rw [if_pos h1, if_pos ⟨h1.1, List.mem_cons_of_mem a h1.2.1, h1.2.2⟩]
    · rw [if_neg h1]
      by_cases h2 : r = c ∧ r = a ∧ r < d
      · obtain ⟨h2c, h2a, hlt⟩ := h2
        have hmem : r ∈ a :: t := by rw [h2a]; exact List.mem_cons_self a t
        rw [if_pos ⟨h2c, hmem, hlt⟩]
        have e1 : mset m a a 1 = mset m r r 1 := by rw [← h2a]
        have e2 : mget (mset m r r 1) r c = mget (mset m r r 1) r r := by rw [← h2c]
        rw [e1, e2]
        exact mget_mset_self hwf hlt hlt 1
      · have hneg : ¬ (r = c ∧ r ∈ a :: t ∧ r < d) := by
          intro hcon
          rcases List.mem_cons.mp hcon.2.1 with h | h
          · exact h2 ⟨hcon.1, h, hcon.2.2⟩
          · exact h1 ⟨hcon.1, h, hcon.2.2⟩
        rw [if_neg hneg]
        by_cases hra : r = a ∧ c = a
        · -- writing at the diagonal cell (a, a) = (r, c) out of range
          obtain ⟨hra1, hra2⟩ := hra
          have hnlt : ¬ r < d := fun hlt => h2 ⟨hra1.trans hra2.symm, hra1, hlt⟩
          exact mget_mset_oob m a a 1 r c (by rw [hwf.1, ← hra1]; omega)
        · refine mget_mset_ne m ?_ 1
          by_cases hx : a = r
          · subst hx
            right
            intro hac
            exact hra ⟨rfl, hac.symm⟩
          · exact Or.inl hx

theorem wf_midentity (d : Nat) : Wf (midentity d) d d :=
  (foldl_msetdiag_spec d (List.range d) (mzero d d) 0 0 (wf_mzero d d)).1

theorem mget_midentity (d r c : Nat) :
    mget (midentity d) r c = if r = c ∧ r < d then 1 else 0 := by
  rw [midentity,
    (foldl_msetdiag_spec d (List.range d) (mzero d d) r c (wf_mzero d d)).2, mget_mzero]
  by_cases h : r = c ∧ r < d
  · rw [if_pos ⟨h.1, List.mem_range.mpr h.2, h.2⟩, if_pos h]
  · rw [if_neg h, if_neg (by rintro ⟨h1, _, h3⟩; exact h ⟨h1, h3⟩)]

theorem luEps_ne : luEps ≠ 0 := by decide

/-- Congruence of the inner running sums: they only read rows `< i` of
`U` at column `c` and row `r` of `L` at columns `< i`. -/
theorem luSum_congr (L1 L2 U1 U2 : Mat) (r c i : Nat)
    (hL : ∀ k, k < i → mget L1 r k = mget L2 r k)
    (hU : ∀ k, k < i → mget U1 k c = mget U2 k c) :
    luSum L1 U1 r c i = luSum L2 U2 r c i := by
  rw [luSum, luSum]
  have : ∀ (S : List Nat) (t : ℚ), (∀ k ∈ S, k < i) →
      S.foldl (fun t k => qadd t (qmul (mget L1 r k) (mget U1 k c))) t =
      S.foldl (fun t k => qadd t (qmul (mget L2 r k) (mget U2 k c))) t := by
    intro S
    induction S with
    | nil => intro t _; rfl
    | cons a s ih =>
      intro t hmem
      rw [List.foldl_cons, List.foldl_cons, hL a (hmem a (by simp)),
        hU a (hmem a (by simp))]
      exact ih _ (fun k hk => hmem k (by simp [hk]))
  exact this _ 0 (fun k hk => List.mem_range.mp hk)

/-- The first inner loop as a fold over an explicit index list (equal to
`luLoop1` by definition). -/
def luL1go (A U : Mat) (i : Nat) (S : List Nat) (L : Mat) : Mat :=
  S.foldl (fun Lc j => mset Lc j i (qsub (mget A j i) (luSum Lc U j i i))) L

theorem luLoop1_eq_go (A : Mat) (i dim : Nat) (L U : Mat) :
    luLoop1 A i dim L U = luL1go A U i (List.range' i (dim - i)) L := rfl

theorem luL1go_spec (A U : Mat) (i dim : Nat) :
    ∀ (b a : Nat) (L : Mat), Wf L dim dim → i ≤ a → a + b ≤ dim →
    Wf (luL1go A U i (List.range' a b) L) dim dim
    ∧ (∀ r c, c ≠ i → mget (luL1go A U i (List.range' a b) L) r c = mget L r c)
    ∧ (∀ r, r < a → mget (luL1go A U i (List.range' a b) L) r i = mget L r i)
    ∧ (∀ r, a ≤ r → r < a + b →
        mget (luL1go A U i (List.range' a b) L) r i = qsub (mget A r i) (luSum L U r i i))
    ∧ (∀ r, a + b ≤ r → mget (luL1go A U i (List.range' a b) L) r i = mget L r i) := by
  intro b
  induction b with
  | zero =>
    intro a L hwf _ _
    exact ⟨hwf, fun _ _ _ => rfl, fun _ _ => rfl, fun r h1 h2 => by omega, fun _ _ => rfl⟩
  | succ n ih =>
    intro a L hwf hia hab
    rw [List.range'_succ]
    have hwfL' : Wf (mset L a i (qsub (mget A a i) (luSum L U a i i))) dim dim := hwf.mset _ _ _
    obtain ⟨hwf', hne', hlt', hmid', hge'⟩ :=
      ih (a + 1) (mset L a i (qsub (mget A a i) (luSum L U a i i))) hwfL' (by omega) (by omega)
    have hgocons : luL1go A U i (a :: List.range' (a + 1) n) L =
        luL1go A U i (List.range' (a + 1) n)
          (mset L a i (qsub (mget A a i) (luSum L U a i i))) := rfl
    rw [hgocons]
    refine ⟨hwf', ?_, ?_, ?_, ?_⟩
    · intro r c hc
      rw [hne' r c hc, mget_mset_ne _ (Or.inr (fun h => hc h.symm))]
    · intro r hr
      rw [hlt' r (by omega), mget_mset_ne _ (Or.inl (by omega))]
    · intro r hr1 hr2
      by_cases heq : r = a
      · rw [heq, hlt' a (by omega), mget_mset_self hwf (by omega) (by omega)]
      · rw [hmid' r (by omega) (by omega)]
        congr 1
        refine luSum_congr _ _ _ _ _ _ _ (fun k hk => ?_) (fun k hk => rfl)
        rw [mget_mset_ne _ (Or.inr (by omega))]
    · intro r hr
      rw [hge' r (by omega), mget_mset_ne _ (Or.inl (by omega))]

/-- The second inner loop as a fold over an explicit index list (equal to
`luLoop2` by definition). -/
def luL2go (A : Mat) (i : Nat) (S : List Nat) (LU : Mat × Mat) : Mat × Mat :=
  S.foldl
    (fun LUc j =>
      let tot := luSum LUc.1 LUc.2 i j i
      let Lc := if mget LUc.1 i i = 0 then mset LUc.1 i i luEps else LUc.1
      (Lc, mset LUc.2 i j (qdiv (qsub (mget A i j) tot) (mget Lc i i))))
    LU

theorem luLoop2_eq_go (A : Mat) (i dim : Nat) (LU : Mat × Mat) :
    luLoop2 A i dim LU = luL2go A i (List.range' i (dim - i)) LU := rfl

theorem luL2go_tail (A : Mat) (i dim : Nat) (L : Mat) (hL : mget L i i ≠ 0) (hid : i < dim) :
    ∀ (b a : Nat) (U : Mat), Wf U dim dim → i < a → a + b ≤ dim →
    (luL2go A i (List.range' a b) (L, U)).1 = L
    ∧ Wf (luL2go A i (List.range' a b) (L, U)).2 dim dim
    ∧ (∀ r c, r ≠ i → mget (luL2go A i (List.range' a b) (L, U)).2 r c = mget U r c)
    ∧ (∀ c, c < a → mget (luL2go A i (List.range' a b) (L, U)).2 i c = mget U i c)
    ∧ (∀ c, a ≤ c → c < a + b →
        mget (luL2go A i (List.range' a b) (L, U)).2 i c =
          qdiv (qsub (mget A i c) (luSum L U i c i)) (mget L i i))
    ∧ (∀ c, a + b ≤ c → mget (luL2go A i (List.range' a b) (L, U)).2 i c = mget U i c) := by
  intro b
  induction b with
  | zero =>
    intro a U hwf _ _
    exact ⟨rfl, hwf, fun _ _ _ => rfl, fun _ _ => rfl, fun c h1 h2 => by omega, fun _ _ => rfl⟩
  | succ n ih =>
    intro a U hwf hia hab
    rw [List.range'_succ]
    have hcons : luL2go A i (a :: List.range' (a + 1) n) (L, U) =
        luL2go A i (List.range' (a + 1) n)
          (L, mset U i a (qdiv (qsub (mget A i a) (luSum L U i a i)) (mget L i i))) := by
      show luL2go A i (List.range' (a + 1) n)
          (if mget L i i = 0 then mset L i i luEps else L,
           mset U i a (qdiv (qsub (mget A i a) (luSum L U i a i))
             (mget (if mget L i i = 0 then mset L i i luEps else L) i i))) = _
      rw [if_neg hL]
    rw [hcons]
    have hwfU' : Wf (mset U i a (qdiv (qsub (mget A i a) (luSum L U i a i)) (mget L i i)))
        dim dim := hwf.mset _ _ _
    obtain ⟨h1', h2', h3', h4', h5', h6'⟩ := ih (a + 1) _ hwfU' (by omega) (by omega)
    refine ⟨h1', h2', ?_, ?_, ?_, ?_⟩
    · intro r c hr
      rw [h3' r c hr, mget_mset_ne _ (Or.inl (fun h => hr h.symm))]
    · intro c hc
      rw [h4' c (by omega), mget_mset_ne _ (Or.inr (by omega))]
    · intro c hc1 hc2
      by_cases heq : c = a
      · rw [heq, h4' a (by omega), mget_mset_self hwf hid (by omega)]
      · rw [h5' c (by omega) (by omega)]
        congr 2
        refine luSum_congr _ _ _ _ _ _ _ (fun k hk => rfl) (fun k hk => ?_)
        rw [mget_mset_ne _ (Or.inl (by omega))]
    · intro c hc
      rw [h6' c (by omega), mget_mset_ne _ (Or.inr (by omega))]

/-- Invariant of the outer Crout loop after processing columns/rows
`< i`: shapes are preserved, `L` is still zero on untouched columns and
above the diagonal, the untouched rows of `U` are still identity rows,
`U` is zero strictly below the diagonal, and every processed diagonal
entry of `U` is 1 — or 0 with the epsilon sitting in `L` where the pivot
was zero. -/
def LUInv (dim i : Nat) (LU : Mat × Mat) : Prop :=
  Wf LU.1 dim dim ∧ Wf LU.2 dim dim
  ∧ (∀ r c, c < dim → (i ≤ c ∨ r < c) → mget LU.1 r c = 0)
  ∧ (∀ r c, i ≤ r → r < dim → c < dim → mget LU.2 r c = (if r = c then 1 else 0))
  ∧ (∀ r c, c < r → mget LU.2 r c = 0)
  ∧ (∀ r, r < i → (mget LU.2 r r = 1 ∨ (mget LU.2 r r = 0 ∧ mget LU.1 r r = luEps)))

theorem LUInv_base (dim : Nat) : LUInv dim 0 (mzero dim dim, midentity dim) := by
  refine ⟨wf_mzero dim dim, wf_midentity dim, ?_, ?_, ?_, ?_⟩
  · intro r c _ _
    exact mget_mzero dim dim r c
  · intro r c _ hr hc
    rw [mget_midentity]
    by_cases h : r = c
    · rw [if_pos ⟨h, hr⟩, if_pos h]
    · rw [if_neg (by tauto), if_neg h]
  · intro r c hcr
    rw [mget_midentity, if_neg (by rintro ⟨rfl, _⟩; omega)]
  · intro r hr
    omega

theorem LUInv_step (A : Mat) (dim i : Nat) (LU : Mat × Mat) (hi : i < dim)
    (hinv : LUInv dim i LU) :
    LUInv dim (i + 1) (luLoop2 A i dim (luLoop1 A i dim LU.1 LU.2, LU.2)) := by
  obtain ⟨hwL, hwU, hL0, hUid, hUlow, hdiag⟩ := hinv
  rw [luLoop1_eq_go, luLoop2_eq_go]
  obtain ⟨hwf1, hne1, hlt1, hmid1, hge1⟩ :=
    luL1go_spec A LU.2 i dim (dim - i) i LU.1 hwL (le_refl i) (by omega)
  set L1 := luL1go A LU.2 i (List.range' i (dim - i)) LU.1 with hL1def
  set p := mget L1 i i with hpdef
  set L2 := if p = 0 then mset L1 i i luEps else L1 with hL2def
  have hwf2 : Wf L2 dim dim := by
    rw [hL2def]
    by_cases hp : p = 0
    · rw [if_pos hp]
      exact hwf1.mset _ _ _
    · rw [if_neg hp]
      exact hwf1
  have hL2ii : mget L2 i i = (if p = 0 then luEps else p) := by
    rw [hL2def]
    by_cases hp : p = 0
    · rw [if_pos hp, if_pos hp, mget_mset_self hwf1 hi hi]
    · rw [if_neg hp, if_neg hp]
  have hL2ne : mget L2 i i ≠ 0 := by
    rw [hL2ii]
    by_cases hp : p = 0
    · rw [if_pos hp]
      exact luEps_ne
    · rw [if_neg hp]
      exact hp
  have hL2get : ∀ r c, ¬ (r = i ∧ c = i) → mget L2 r c = mget L1 r c := by
    intro r c hrc
    rw [hL2def]
    by_cases hp : p = 0
    · rw [if_pos hp]
      refine mget_mset_ne _ ?_ _
      by_cases hri : i = r
      · exact Or.inr (fun hc => hrc ⟨hri.symm, hc.symm⟩)
      · exact Or.inl hri
    · rw [if_neg hp]
  have hrange : List.range' i (dim - i) = i :: List.range' (i + 1) (dim - i - 1) := by
    have h : dim - i = (dim - i - 1) + 1 := by omega
    rw [h, List.range'_succ]
    have h2 : dim - i - 1 + 1 - 1 = dim - i - 1 := by omega
    rw [h2]
  rw [hrange]
  have hcons : luL2go A i (i :: List.range' (i + 1) (dim - i - 1)) (L1, LU.2) =
      luL2go A i (List.range' (i + 1) (dim - i - 1))
        (L2, mset LU.2 i i
          (qdiv (qsub (mget A i i) (luSum L1 LU.2 i i i)) (mget L2 i i))) := rfl
  rw [hcons]
  have hwfU' : Wf (mset LU.2 i i
      (qdiv (qsub (mget A i i) (luSum L1 LU.2 i i i)) (mget L2 i i))) dim dim :=
    hwU.mset _ _ _
  obtain ⟨ht1, ht2, ht3, ht4, ht5, ht6⟩ :=
    luL2go_tail A i dim L2 hL2ne hi (dim - i - 1) (i + 1) _ hwfU' (by omega) (by omega)
  -- the untouched `(i, i)` entry of `U` after the tail
  have hUii : mget (luL2go A i (List.range' (i + 1) (dim - i - 1))
      (L2, mset LU.2 i i
        (qdiv (qsub (mget A i i) (luSum L1 LU.2 i i i)) (mget L2 i i)))).2 i i =
      qdiv (qsub (mget A i i) (luSum L1 LU.2 i i i)) (mget L2 i i) := by
    rw [ht4 i (by omega), mget_mset_self hwU hi hi]
  -- the first-loop pivot seen from the original matrices
  have hpiv : p = qsub (mget A i i) (luSum LU.1 LU.2 i i i) := by
    rw [hpdef]
    exact hmid1 i (le_refl i) (by omega)
  have htot : luSum L1 LU.2 i i i = luSum LU.1 LU.2 i i i := by
    refine luSum_congr _ _ _ _ _ _ _ (fun k hk => ?_) (fun k _ => rfl)
    exact hne1 i k (by omega)
  have hnum : qsub (mget A i i) (luSum L1 LU.2 i i i) = p := by
    rw [htot, hpiv]
  have hfin1 : Wf (luL2go A i (List.range' (i + 1) (dim - i - 1))
      (L2, mset LU.2 i i
        (qdiv (qsub (mget A i i) (luSum L1 LU.2 i i i)) (mget L2 i i)))).1 dim dim := by
    rw [ht1]
    exact hwf2
  refine ⟨hfin1, ht2, ?_, ?_, ?_, ?_⟩
  · -- `L` stays zero on columns ≥ i+1 and above the diagonal
    intro r c hc hcase
    rw [ht1]
    by_cases hci : c = i
    · -- only sensible when `r < c = i`
      have hrc : r < i := by
        rcases hcase with h | h
        · omega
        · omega
      rw [hL2get r c (by omega), hci, hlt1 r hrc]
      exact hL0 r i hi (Or.inl (le_refl i))
    · rw [hL2get r c (fun h => hci h.2), hne1 r c hci]
      refine hL0 r c hc ?_
      rcases hcase with h | h
      · exact Or.inl (by omega)
      · exact Or.inr h
  · -- rows ≥ i+1 of `U` are still identity rows
    intro r c hr hrd hcd
    rw [ht3 r c (by omega), mget_mset_ne _ (Or.inl (by omega))]
    exact hUid r c (by omega) hrd hcd
  · -- `U` stays zero strictly below the diagonal
    intro r c hcr
    by_cases hri : r = i
    · rw [hri] at hcr ⊢
      rw [ht4 c (by omega), mget_mset_ne _ (Or.inr (by omega))]
      exact hUlow i c hcr
    · rw [ht3 r c hri, mget_mset_ne _ (Or.inl (fun h => hri h.symm))]
      exact hUlow r c hcr
  · -- processed diagonal entries
    intro r hr
    by_cases hri : r = i
    · rw [hri, hUii, ht1, hnum, hL2ii]
      by_cases hp : p = 0
      · right
        rw [if_pos hp, hp]
        constructor
        · rw [qdiv_eq, zero_div]
        · rfl
      · left
        rw [if_neg hp, qdiv_eq, div_self hp]
    · have hrlt : r < i := by omega
      rw [ht3 r r hri, mget_mset_ne _ (Or.inl (fun h => hri h.symm)), ht1]
      rcases hdiag r hrlt with h1 | ⟨h1, h2⟩
      · exact Or.inl h1
      · refine Or.inr ⟨h1, ?_⟩
        rw [hL2get r r (fun h => hri h.1), hne1 r r (by omega)]
        exact h2

theorem LUpair_inv (A : Mat) :
    ∀ n, n ≤ (msize A).1 →
    LUInv (msize A).1 n ((List.range n).foldl
      (fun LU i => luLoop2 A i (msize A).1 (luLoop1 A i (msize A).1 LU.1 LU.2, LU.2))
      (mzero (msize A).1 (msize A).1, midentity (msize A).1)) := by
  intro n
  induction n with
  | zero =>
    intro _
    exact LUInv_base (msize A).1
  | succ k ih =>
    intro hk
    rw [List.range_succ, List.foldl_append, List.foldl_cons, List.foldl_nil]
    exact LUInv_step A (msize A).1 k _ (by omega) (ih (by omega))

/-- Claim C8 (amended): for a square matrix, `LU` succeeds and returns
`L` lower-triangular (zero above the diagonal) and `U` upper-triangular
with zeros below the diagonal; each diagonal entry of `U` is 1 except
where the pivot was exactly zero, in which case that entry is 0 and the
corresponding `L` diagonal entry is the substituted epsilon `1e-20` (the
zero-pivot guard, so the decomposition never divides by zero); a
non-square input fails with the not-square error. -/
theorem C8_LU_triangular (A : Mat) :
    ((msize A).1 ≠ (msize A).2 → matLU A = .error .notSquare)
    ∧ ((msize A).1 = (msize A).2 →
      ∀ L U, matLU A = .ok (L, U) →
        (∀ r c, r < c → c < (msize A).1 → mget L r c = 0)
        ∧ (∀ r c, c < r → mget U r c = 0)
        ∧ (∀ i, i < (msize A).1 →
            mget U i i = 1 ∨ (mget U i i = 0 ∧ mget L i i = luEps))) := by
  constructor
  · intro hne
    rw [matLU, if_pos hne]
  · intro hsq L U h
    rw [matLU, if_neg (by omega)] at h
    obtain ⟨hL, hU⟩ := Prod.mk.inj (Except.ok.inj h)
    obtain ⟨_, _, hL0, _, hUlow, hdiag⟩ := LUpair_inv A (msize A).1 (le_refl _)
    refine ⟨?_, ?_, ?_⟩
    · intro r c hrc hc
      rw [← hL]
      exact hL0 r c hc (Or.inr hrc)
    · intro r c hcr
      rw [← hU]
      exact hUlow r c hcr
    · intro i hi
      rw [← hU, ← hL]
      exact hdiag i hi

/-- Counterexample to claim C8 as stated: on input `[[0]]` the zero pivot
is replaced by epsilon and `U = [[0]]` — its diagonal entry is 0, not the
claimed 1. -/
theorem C8_counterexample :
    matLU [[(0 : ℚ)]] = .ok ([[luEps]], [[0]]) ∧ (0 : ℚ) ≠ 1 := by
  constructor
  · decide
  · decide

/-- Witness for the amended C8 at the concrete square matrix
`[[1,2],[3,4]]`, whose Crout factors are `[[1,0],[3,-2]]` and
`[[1,2],[0,1]]`. -/
theorem C8_witness :
    (∀ r c, r < c → c < (msize [[(1 : ℚ), 2], [3, 4]]).1 →
      mget [[(1 : ℚ), 0], [3, -2]] r c = 0)
    ∧ (∀ r c, c < r → mget [[(1 : ℚ), 2], [0, 1]] r c = 0)
    ∧ (∀ i, i < (msize [[(1 : ℚ), 2], [3, 4]]).1 →
        mget [[(1 : ℚ), 2], [0, 1]] i i = 1
        ∨ (mget [[(1 : ℚ), 2], [0, 1]] i i = 0
           ∧ mget [[(1 : ℚ), 0], [3, -2]] i i = luEps)) :=
  (C8_LU_triangular [[(1 : ℚ), 2], [3, 4]]).2 (by decide) [[(1 : ℚ), 0], [3, -2]]
    [[(1 : ℚ), 2], [0, 1]] (by decide)

end JKal
